import Mathlib

/-!
Verification development for the ogma schema compiler.

This file gives a shallow embedding, in Lean 4, of the parts of the ogma
code base that the specification talks about:

- the Python string helpers used by the DDL compiler
  (multiline_rstrip in src/ogma/modelutils/sqlalchemywrappers.py);
- the enum and table model with its derived check constraints
  (Enum, Table, MetaData in src/ogma/modelutils/sqlalchemywrappers.py);
- the model validation and the import sandbox
  (src/ogma/modelutils/validation.py);
- the enum materialization and view generation
  (src/ogma/commands/enumtables.py);
- the type mapping and code generation data
  (src/ogma/commands/common.py and src/ogma/codegen.py).

Python strings are modelled as Lean strings, lists of Python dicts as
association lists, and in-place mutation of objects as explicit state
passing: an operation that mutates an object in Python is a Lean function
that returns the object value after the call.  Machine integers do not
overflow in any of the embedded code paths (they are list indices and
small counters), so Nat is used directly.
-/

namespace Ogma

/-! ## Python string primitives

The embedded code uses str.rstrip, str.strip, str.splitlines and
str.lower on ASCII text.  They are modelled on lists of characters.
Python str.splitlines also breaks on a bare carriage return and some
unicode separators; the DDL text the program feeds through it only uses
the newline character (a carriage return before a newline is removed by
rstrip anyway, being whitespace), so the model splits on the newline
character alone. -/

/-- The ASCII whitespace characters stripped by Python str.rstrip. -/
def pyIsSpace (c : Char) : Bool :=
  c = ' ' || c = '\t' || c = '\n' || c = '\r' || c = '\x0b' || c = '\x0c'

/-- Python str.rstrip on a list of characters. -/
def rstripChars (cs : List Char) : List Char :=
  (cs.reverse.dropWhile pyIsSpace).reverse

/-- Python str.strip on a list of characters. -/
def stripChars (cs : List Char) : List Char :=
  (rstripChars cs).dropWhile pyIsSpace

/-- Split a list of characters at every newline character.  Always
returns at least one (possibly empty) piece. -/
def splitNl : List Char → List (List Char)
  | [] => [[]]
  | c :: rest =>
    if c = '\n' then [] :: splitNl rest
    else
      match splitNl rest with
      | [] => [[c]]
      | l :: ls => (c :: l) :: ls

/-- Python str.splitlines with keepends False, for newline-separated
text: like splitNl, but the empty string has no lines and a trailing
newline does not open a final empty line. -/
def splitlinesChars (cs : List Char) : List (List Char) :=
  match cs with
  | [] => []
  | _ =>
    let ps := splitNl cs
    if ps.getLast? = some [] then ps.dropLast else ps

/-- Python str.join on lists of characters: the pieces separated by the
separator. -/
def joinSep (sep : List Char) : List (List Char) → List Char
  | [] => []
  | [l] => l
  | l :: ls => l ++ sep ++ joinSep sep ls

/-- Embedding of multiline_rstrip (sqlalchemywrappers.py lines 14 to 19):
split into lines, rstrip every line, join with a newline. -/
def multilineRstripChars (cs : List Char) : List Char :=
  joinSep ['\n'] ((splitlinesChars cs).map rstripChars)

/-- multiline_rstrip on strings, as in the source. -/
def multiline_rstrip (s : String) : String :=
  ⟨multilineRstripChars s.data⟩

/-- Python str.rstrip on strings. -/
def pyRstrip (s : String) : String :=
  ⟨rstripChars s.data⟩

/-- Python str.strip on strings. -/
def pyStrip (s : String) : String :=
  ⟨stripChars s.data⟩

/-- Python str.splitlines on strings (newline-separated text). -/
def pySplitlines (s : String) : List String :=
  (splitlinesChars s.data).map (fun l => ⟨l⟩)

/-- Python string comparison on lists of characters: lexicographic by
code point. -/
def pyStrLeChars : List Char → List Char → Bool
  | [], _ => true
  | _ :: _, [] => false
  | a :: as, b :: bs =>
    if a.toNat < b.toNat then true
    else if b.toNat < a.toNat then false
    else pyStrLeChars as bs

/-- Python string less-or-equal. -/
def pyStrLe (a b : String) : Bool :=
  pyStrLeChars a.data b.data

/-! ## The camel-to-snake transliteration

Embedding of _camel_to_snake (src/ogma/commands/enumtables.py lines 30
to 33).  The Python code applies two regular expression substitutions
and lowercases the result:

- first, every leftmost non-overlapping occurrence of any character
  except a newline, followed by an ASCII uppercase letter, followed by a
  maximal nonempty run of ASCII lowercase letters, has an underscore
  inserted after the first character;
- second, every leftmost non-overlapping occurrence of an ASCII
  lowercase letter or digit followed by an ASCII uppercase letter has an
  underscore inserted between the two.

Both substitutions resume scanning after the end of each match, which
the fuel-indexed recursion below reproduces; the fuel is the length of
the input, and every recursive call consumes at least one character, so
the fuel never runs out. -/

/-- Whether a character list starts with an ASCII lowercase letter. -/
def headIsLower : List Char → Bool
  | c :: _ => c.isLower
  | [] => false

/-- One pass of the first substitution, regex (.)([A-Z][a-z]+) replaced
by inserting an underscore after group one. -/
def camelSub1 : Nat → List Char → List Char
  | 0, cs => cs
  | _ + 1, [] => []
  | fuel + 1, c0 :: rest =>
    match rest with
    | [] => [c0]
    | c1 :: rest2 =>
      if c0 ≠ '\n' && c1.isUpper && headIsLower rest2 then
        c0 :: '_' :: c1 ::
          (rest2.takeWhile Char.isLower ++ camelSub1 fuel (rest2.dropWhile Char.isLower))
      else
        c0 :: camelSub1 fuel (c1 :: rest2)

/-- One pass of the second substitution, regex ([a-z0-9])([A-Z])
replaced by inserting an underscore between the groups. -/
def camelSub2 : List Char → List Char
  | [] => []
  | [c] => [c]
  | c0 :: c1 :: rest =>
    if (c0.isLower || c0.isDigit) && c1.isUpper then
      c0 :: '_' :: c1 :: camelSub2 rest
    else
      c0 :: camelSub2 (c1 :: rest)

/-- Embedding of _camel_to_snake. -/
def _camel_to_snake (name : String) : String :=
  ⟨(camelSub2 (camelSub1 name.data.length name.data)).map Char.toLower⟩

/-- Embedding of _table_name_from_enum (enumtables.py lines 36 to 38). -/
def _table_name_from_enum (enumName : String) : String :=
  "enum_" ++ _camel_to_snake enumName

/-! ## The enum model and derived check constraints

Embedding of the Enum class (sqlalchemywrappers.py lines 147 to 187).
A successfully constructed Enum holds its name and the declared value
names in declaration order; the numeric code of a value is the index
the enumerate call assigns when the value is added. -/

/-- A successfully constructed database enum: name plus value names in
declaration order. -/
structure EnumDef where
  name : String
  values : List String
deriving Repr, DecidableEq

/-- The (value name, numeric code) pairs an Enum instance carries as
attributes: Enum.__init__ walks enumerate(args, start=0) and does
setattr(self, element, index). -/
def enumAssignedCodes (e : EnumDef) : List (String × Nat) :=
  e.values.enum.map (fun p => (p.2, p.1))

/-- A sqlalchemy CheckConstraint as the model uses it: the constraint
text and the constraint name. -/
structure CheckConstraint where
  text : String
  name : String
deriving Repr, DecidableEq

/-- Embedding of Enum.get_constraint (sqlalchemywrappers.py lines 180
to 184): the check text lists range(len(self._values)) joined by
commas, the name is ck_ followed by table and column name. -/
def EnumDef.get_constraint (e : EnumDef) (tableName columnName : String) :
    CheckConstraint :=
  { text := columnName ++ " in (" ++
      String.intercalate "," ((List.range e.values.length).map toString) ++ ")"
  , name := "ck_" ++ tableName ++ "_" ++ columnName }

/-- The column types the embedded code distinguishes.  integerEnum is
the IntegerEnum type decorator carrying its Enum as field_data;
dateTime is the generic sqlalchemy DateTime; mysqlDatetime is the MySQL
DATETIME with a fractional-seconds parameter; other covers every
remaining passthrough type. -/
inductive ColType where
  | integerEnum (e : EnumDef)
  | boolean
  | binary
  | dateTime
  | mysqlDatetime (fsp : Nat)
  | other (typeName : String)
deriving Repr, DecidableEq

/-- A column of a model table: its name and its type. -/
structure ColumnDef where
  name : String
  type : ColType
deriving Repr, DecidableEq

/-- A model table: its name and its columns in declaration order. -/
structure TableDef where
  name : String
  columns : List ColumnDef
deriving Repr, DecidableEq

/-- Embedding of the constraint-appending loop in Table.__init__
(sqlalchemywrappers.py lines 100 to 107): for every column whose type
is IntegerEnum, the constraint from get_constraint is appended to the
table, in column-declaration order. -/
def tableEnumConstraints (tname : String) (cols : List ColumnDef) :
    List CheckConstraint :=
  cols.filterMap fun c =>
    match c.type with
    | .integerEnum e => some (e.get_constraint tname c.name)
    | _ => none

/-! ## Model construction and duplicate detection

Embedding of _EnumCollection.add_enum, _TableCollection.add_table and
the value loop of Enum.__init__ (sqlalchemywrappers.py).  All three
duplicate checks are hasattr checks on a Python object, so a name
collides not only with previously added names but also with every
attribute the object already carries: the methods of the class (and of
its bases, dict and object for _EnumCollection, object for
_TableCollection) and, for an Enum instance, the fields its __init__
sets before the value loop.  The base attribute lists below enumerate
those pre-existing attributes. -/

/-- The attribute names an object instance carries from class object
itself (Python special methods present on every object). -/
def objectBaseAttrs : List String :=
  ["__class__", "__delattr__", "__dict__", "__dir__", "__doc__", "__eq__",
   "__format__", "__ge__", "__getattribute__", "__gt__", "__hash__",
   "__init__", "__init_subclass__", "__le__", "__lt__", "__module__",
   "__ne__", "__new__", "__reduce__", "__reduce_ex__", "__repr__",
   "__setattr__", "__sizeof__", "__str__", "__subclasshook__",
   "__weakref__"]

/-- The attribute names an _EnumCollection instance carries before any
enum is added: its own method add_enum plus the dict and OrderedDict
method surface plus the object attributes. -/
def enumCollectionBaseAttrs : List String :=
  ["add_enum", "keys", "values", "items", "get", "pop", "popitem",
   "clear", "update", "setdefault", "copy", "fromkeys", "move_to_end",
   "__contains__", "__delitem__", "__getitem__", "__iter__", "__len__",
   "__setitem__", "__reversed__", "__or__", "__ror__", "__ior__",
   "__class_getitem__", "__sizeof__"] ++ objectBaseAttrs

/-- The attribute names a _TableCollection instance carries before any
table is added: its own method add_table plus the object attributes. -/
def tableCollectionBaseAttrs : List String :=
  ["add_table"] ++ objectBaseAttrs

/-- The attribute names an Enum instance carries when its value loop
starts: the fields set by __init__ before the loop (name, args, kwargs,
_values) plus the class methods plus the object attributes. -/
def enumInstanceBaseAttrs : List String :=
  ["name", "args", "kwargs", "_values", "get_constraint", "__call__"] ++
    objectBaseAttrs

/-- The value loop of Enum.__init__ (sqlalchemywrappers.py lines 163 to
169): walk the declared values, failing on the first value name that is
already an attribute of the enum instance, otherwise adding it as an
attribute.  attrs is the current attribute set, acc the values added so
far. -/
def enumAddValues (enumName : String) :
    List String → List String → List String → Except String (List String)
  | _, acc, [] => .ok acc
  | attrs, acc, v :: rest =>
    if attrs.contains v then
      .error (v ++ " enum value already defined for enum " ++ enumName)
    else
      enumAddValues enumName (v :: attrs) (acc ++ [v]) rest

/-- A declaration in a model file, as far as duplicate checking is
concerned: an enum with its value names, or a table. -/
inductive ModelDecl where
  | enumDecl (name : String) (values : List String)
  | tableDecl (name : String)
deriving Repr, DecidableEq

/-- The model-construction state: the enum names added to the enum
collection as attributes, the constructed enums, and the table names
registered both with the sqlalchemy MetaData and the _TableCollection. -/
structure BuildState where
  enumNames : List String
  enums : List EnumDef
  tableNames : List String
deriving Repr, DecidableEq

/-- Process one declaration.  For an enum (Enum.__init__ lines 153 to
169): metadata.add_enum first raises if the enum collection already has
the name as an attribute, then the value loop runs.  For a table
(Table.__init__ lines 92 to 98): the sqlalchemy MetaData raises on a
name already registered with it, then _TableCollection.add_table raises
if the collection already has the name as an attribute. -/
def buildStep (st : BuildState) : ModelDecl → Except String BuildState
  | .enumDecl n vs =>
    if (enumCollectionBaseAttrs ++ st.enumNames).contains n then
      .error (n ++ " enum already defined")
    else
      match enumAddValues n enumInstanceBaseAttrs [] vs with
      | .error msg => .error msg
      | .ok values =>
        .ok { st with enumNames := st.enumNames ++ [n]
                      enums := st.enums ++ [⟨n, values⟩] }
  | .tableDecl n =>
    if st.tableNames.contains n then
      .error ("Table " ++ n ++ " is already defined for this MetaData instance")
    else if (tableCollectionBaseAttrs ++ st.tableNames).contains n then
      .error (n ++ " table already defined")
    else
      .ok { st with tableNames := st.tableNames ++ [n] }

/-- Build a model from a list of declarations, stopping at the first
construction error. -/
def buildModel' (st : BuildState) : List ModelDecl → Except String BuildState
  | [] => .ok st
  | d :: rest =>
    match buildStep st d with
    | .error msg => .error msg
    | .ok st' => buildModel' st' rest

/-- Build a model from scratch. -/
def buildModel (decls : List ModelDecl) : Except String BuildState :=
  buildModel' ⟨[], [], []⟩ decls

/-! ## Schema-level validation

Embedding of validate_model (src/ogma/modelutils/validation.py lines 9
to 43).  The error function prints and exits the process, so each
validator either passes or aborts with its error; the two validators
run in order, schema existence first. -/

/-- The two fatal schema validation failures. -/
inductive SchemaValidationError where
  | missingSchemaName
  | invalidSchemaName (name : String)
deriving Repr, DecidableEq

/-- The characters of the invalid_chars raw string in
_validate_schema_name (validation.py line 25), which the regular
expression excludes from names via a negated character class; the
escaped right bracket denotes the right bracket character and the
backslash itself is consumed by the escape, so it is not in the set. -/
def invalidSchemaChars : List Char :=
  ['-', '^', '<', '>', '/', Char.ofNat 39, Char.ofNat 34, Char.ofNat 123,
   Char.ofNat 125, '[', ']', '~', Char.ofNat 96]

/-- Whether the regular expression of _validate_schema_name matches a
name: one or more characters, each outside the invalid set.  The
newline character is not in the invalid set, so the dollar anchor
matching before a final newline adds no extra strings. -/
def schemaNameMatches (n : String) : Bool :=
  !n.data.isEmpty && n.data.all (fun c => !invalidSchemaChars.contains c)

/-- Embedding of _validate_schema_exists (lines 9 to 21) followed by
_validate_schema_name (lines 23 to 38), as validate_model runs them
(lines 41 to 43): none means no Schema call set a name. -/
def validate_model (schemaName : Option String) :
    Except SchemaValidationError Unit :=
  match schemaName with
  | none => .error .missingSchemaName
  | some n =>
    if !schemaNameMatches n || n.data.contains '.' then
      .error (.invalidSchemaName n)
    else
      .ok ()

/-! ## The import sandbox

Embedding of validate_model_file and _get_line
(src/ogma/modelutils/validation.py lines 50 to 75).  The Python code
parses the source into an ast and walks every node; the embedding takes
the walked node sequence as a list, each node knowing whether it is a
plain import statement or an import-from statement, with its one-based
source line.  The scan happens on the text alone, before the model
source is executed. -/

/-- An ast node as far as the sandbox cares: whether it is an import
statement (plain or from-import) and its one-based line number. -/
structure AstNode where
  isImport : Bool
  lineno : Nat
deriving Repr, DecidableEq

/-- Embedding of _get_line (lines 50 to 53): index the keepends-False
line list at lineno minus one; none models an out-of-range index (the
assert and the list indexing would fail in Python). -/
def _get_line (modelContent : String) (lineno : Nat) : Option String :=
  if lineno = 0 then none
  else (pySplitlines modelContent).get? (lineno - 1)

/-- The outcome of validate_model_file: passed, rejected with a
SandboxViolation message, or a Python-level error from a line number
the source text cannot index. -/
inductive SandboxResult where
  | passed
  | violation (msg : String)
  | internalError
deriving Repr, DecidableEq

/-- Embedding of validate_model_file (lines 56 to 75): with imports
allowed nothing is checked; otherwise the first import node found in
walk order raises a violation whose message carries the line number and
the literal source line. -/
def validate_model_file (allowImports : Bool) (nodes : List AstNode)
    (code : String) : SandboxResult :=
  if allowImports then .passed
  else
    match nodes.find? (fun nd => nd.isImport) with
    | none => .passed
    | some nd =>
      match _get_line code nd.lineno with
      | none => .internalError
      | some line =>
        .violation ("Invalid model: import statement found on line " ++
          toString nd.lineno ++ ":\n" ++ line)

/-! ## Template data for code generation

Embedding of NumericEnumTemplateData (src/ogma/codegen.py lines 26 to
92).  The _values list holds dicts with valname and valnum keys; the
values query copies the final dict and adds a true last key, so the
rendered entries carry an explicit last flag, false everywhere but on
the final entry. -/

/-- One entry of the _values list of a NumericEnumTemplateData. -/
structure TemplateValue where
  valname : String
  valnum : Nat
deriving Repr, DecidableEq

/-- One entry as the values query returns it: the dict plus the
presence of the last key. -/
structure RenderedValue where
  valname : String
  valnum : Nat
  last : Bool
deriving Repr, DecidableEq

/-- The NumericEnumTemplateData state the embedded queries read. -/
structure NumericEnumTemplateData where
  name : String
  _num : Nat
  _values : List TemplateValue
  _package : Option String
  _conv_package : Option String
deriving Repr, DecidableEq

/-- The constructor (codegen.py lines 33 to 39). -/
def NumericEnumTemplateData.new (name : String) : NumericEnumTemplateData :=
  ⟨name, 0, [], none, none⟩

/-- _add_value (lines 63 to 69): append a dict with the current counter
and bump the counter. -/
def NumericEnumTemplateData._add_value (d : NumericEnumTemplateData)
    (n : String) : NumericEnumTemplateData :=
  { d with _values := d._values ++ [⟨n, d._num⟩], _num := d._num + 1 }

/-- with_values (lines 71 to 74). -/
def NumericEnumTemplateData.with_values (d : NumericEnumTemplateData)
    (names : List String) : NumericEnumTemplateData :=
  names.foldl NumericEnumTemplateData._add_value d

/-- with_enum_package (lines 76 to 78). -/
def NumericEnumTemplateData.with_enum_package (d : NumericEnumTemplateData)
    (package : String) : NumericEnumTemplateData :=
  { d with _package := some package }

/-- with_enum_converter_package (lines 80 to 82). -/
def NumericEnumTemplateData.with_enum_converter_package
    (d : NumericEnumTemplateData) (package : String) :
    NumericEnumTemplateData :=
  { d with _conv_package := some package }

/-- How Python renders a value inside an f-string: None becomes the
text None. -/
def pyFormatOptStr : Option String → String
  | none => "None"
  | some s => s

/-- enum_fqn (codegen.py lines 57 to 58): the f-string joining the
package and the name with a dot. -/
def NumericEnumTemplateData.enum_fqn (d : NumericEnumTemplateData) : String :=
  pyFormatOptStr d._package ++ "." ++ d.name

/-- values (codegen.py lines 84 to 89): all but the last entry
unchanged, the last entry copied with last set.  Indexing _values at
minus one raises IndexError on an empty list, modelled as none. -/
def NumericEnumTemplateData.values (d : NumericEnumTemplateData) :
    Option (List RenderedValue) :=
  match d._values.getLast? with
  | none => none
  | some lastVal =>
    some (d._values.dropLast.map (fun v => ⟨v.valname, v.valnum, false⟩) ++
      [⟨lastVal.valname, lastVal.valnum, true⟩])

/-! ## Enum materialization

Embedding of _create_enum_tables and _populate_enum_tables
(src/ogma/commands/enumtables.py lines 41 to 78).  The external
database is modelled as an association list from table name to the rows
the table holds, each row a (value, name) pair.  drop_all removes the
lookup tables that already exist, create_all creates them empty, and
the populate step inserts each value list in order with a single
multi-row insert, so after the run each lookup table holds exactly its
value list.  Declaring two tables with the same name on one sqlalchemy
MetaData raises, which the registration fold reproduces. -/

/-- The external database state: table name to rows. -/
def Database := List (String × List (Nat × String))

/-- The rows _create_enum_tables builds for one enum (line 52 to 54):
enumerate pairs each value name with its index. -/
def lookupRows (e : EnumDef) : List (Nat × String) :=
  e.values.enum

/-- Column layout of a lookup table, from the Table call in
_create_enum_tables (lines 46 to 51). -/
structure LookupColumnSpec where
  name : String
  isIntegerTyped : Bool
  stringLength : Option Nat
  nullable : Bool
  unique : Bool
deriving Repr, DecidableEq

/-- The two columns every lookup table is created with. -/
def lookupTableColumns : List LookupColumnSpec :=
  [⟨"value", true, none, false, true⟩,
   ⟨"name", false, some 50, false, true⟩]

/-- Register the lookup tables for the given enums on one fresh
MetaData, pairing each derived table name with the rows to insert;
fails like sqlalchemy does when a table name repeats. -/
def registerEnumTables : List EnumDef → List String →
    Except String (List (String × List (Nat × String)))
  | [], _ => .ok []
  | e :: rest, registered =>
    let tn := _table_name_from_enum e.name
    if registered.contains tn then
      .error ("Table " ++ tn ++ " is already defined for this MetaData instance")
    else
      match registerEnumTables rest (registered ++ [tn]) with
      | .error msg => .error msg
      | .ok ets => .ok ((tn, lookupRows e) :: ets)

/-- The combined effect on the database of _create_enum_tables followed
by _populate_enum_tables: drop the lookup tables that exist, recreate
them empty, insert the value rows of each enum in order. -/
def materializeEnums (db : Database) (enums : List EnumDef) :
    Except String Database :=
  match registerEnumTables enums [] with
  | .error msg => .error msg
  | .ok ets =>
    let names := ets.map Prod.fst
    .ok ((db.filter (fun t => !names.contains t.1)) ++ ets)

/-- Read the rows of a table back from the database. -/
def readTable (db : Database) (n : String) : Option (List (Nat × String)) :=
  (db.find? (fun t => t.1 = n)).map Prod.snd

/-- Insert a row into a list sorted ascending by the value column. -/
def orderedInsertByValue (p : Nat × String) :
    List (Nat × String) → List (Nat × String)
  | [] => [p]
  | q :: qs =>
    if p.1 ≤ q.1 then p :: q :: qs else q :: orderedInsertByValue p qs

/-- Sort rows ascending by the value column. -/
def sortRowsByValue : List (Nat × String) → List (Nat × String)
  | [] => []
  | p :: ps => orderedInsertByValue p (sortRowsByValue ps)

/-- Read rows back sorted by the value column. -/
def readTableSortedByValue (db : Database) (n : String) :
    Option (List (Nat × String)) :=
  (readTable db n).map sortRowsByValue

/-! ## Type mappings

Embedding of get_type_mappings (src/ogma/commands/common.py lines 33 to
77).  The visitor walks every column of every table in sorted-table
order and records, per table and column, the enum name for IntegerEnum
columns, the text BOOLEAN for Boolean columns and the text BINARY for
BINARY columns, each only when its family is in the filter; the checks
are mutually exclusive because the column type variants are disjoint.
The defaultdict only gains a table key when some column of the table
matches, and the result is sorted by table name, each table by column
name. -/

/-- The TypeFamilies enumeration (common.py lines 27 to 31). -/
inductive TypeFamily where
  | enum
  | boolean
  | binary
deriving Repr, DecidableEq

/-- What the visitor records for one column, if anything. -/
def typeMappingName (filter : List TypeFamily) (t : ColType) : Option String :=
  match t with
  | .integerEnum e => if filter.contains .enum then some e.name else none
  | .boolean => if filter.contains .boolean then some "BOOLEAN" else none
  | .binary => if filter.contains .binary then some "BINARY" else none
  | _ => none

/-- Insert a pair into a key-sorted association list, before the first
entry of larger-or-equal key. -/
def orderedInsertByKey {α : Type} (p : String × α) :
    List (String × α) → List (String × α)
  | [] => [p]
  | q :: qs =>
    if pyStrLe p.1 q.1 then p :: q :: qs else q :: orderedInsertByKey p qs

/-- Sort an association list by key, ascending and stable, as Python
sorted on dict keys does. -/
def sortPairsByKey {α : Type} : List (String × α) → List (String × α)
  | [] => []
  | p :: ps => orderedInsertByKey p (sortPairsByKey ps)

/-- The default filter when filter_types is None (common.py line 39). -/
def defaultTypeFilter : List TypeFamily := [.enum, .boolean]

/-- The (column name, recorded type name) pairs the visitor collects
for one table, in column order. -/
def tableTypeEntries (filter : List TypeFamily) (t : TableDef) :
    List (String × String) :=
  t.columns.filterMap (fun c =>
    (typeMappingName filter c.type).map (fun tn => (c.name, tn)))

/-- Embedding of get_type_mappings: table name to column name to
recorded type name, tables without any match absent. -/
def get_type_mappings (tables : List TableDef) (filter : List TypeFamily) :
    List (String × List (String × String)) :=
  let raw := tables.filterMap (fun t =>
    let cs := tableTypeEntries filter t
    if cs.isEmpty then none else some (t.name, cs))
  (sortPairsByKey raw).map (fun p => (p.1, sortPairsByKey p.2))

/-! ## View generation

Embedding of _make_view and _generate_views
(src/ogma/commands/enumtables.py lines 25 to 27 and 81 to 104).  The
enum table lookup dict maps each enum name to its lookup table name;
dict get returns None when absent, which an f-string renders as the
text None. -/

/-- The view name (line 26). -/
def _make_view_name (fromTable : String) : String :=
  "enumed_" ++ fromTable ++ "_view"

/-- The lookup-table-name dict built at line 82. -/
def enumTableLookupFor (enums : List EnumDef) : List (String × String) :=
  enums.map (fun e => (e.name, _table_name_from_enum e.name))

/-- dict get on an association list, later entries overwriting earlier
ones when the dict was built by insertion. -/
def dictGet (ps : List (String × String)) (k : String) : Option String :=
  (ps.reverse.find? (fun p => p.1 = k)).map Prod.snd

/-- The CREATE OR REPLACE VIEW statement _generate_views issues for one
base table and its enum columns (lines 86 to 98). -/
def viewQuery (lookup : List (String × String)) (table : String)
    (fields : List (String × String)) : String :=
  let tn := fun enumName => pyFormatOptStr (dictGet lookup enumName)
  let selects := fields.map (fun p => tn p.2 ++ ".name as " ++ p.1 ++ "_name")
  let joins := fields.map (fun p =>
    "LEFT JOIN " ++ tn p.2 ++ " ON t." ++ p.1 ++ " = " ++ tn p.2 ++ ".value")
  "CREATE OR REPLACE VIEW " ++ _make_view_name table ++
    " AS SELECT t.*, " ++ String.intercalate ", " selects ++
    " FROM " ++ table ++ " t " ++ String.intercalate " " joins

/-- Embedding of _generate_views: one statement per entry of the enum
usage mapping, in its order. -/
def _generate_views (lookup : List (String × String))
    (usage : List (String × List (String × String))) : List String :=
  usage.map (fun p => viewQuery lookup p.1 p.2)

/-! ## The jOOQ generator configuration

Embedding of EnumCodeGenerator._adjust_enums_from_model,
_jooq_forced_type_data and generate_jooq_config (src/ogma/codegen.py
lines 118 to 129, 182 to 183 and 193 to 215). -/

/-- _adjust_enums_from_model: decorate each model enum with values and
packages. -/
def _adjust_enums_from_model (enums : List EnumDef)
    (enumPackage convPackage : String) : List NumericEnumTemplateData :=
  enums.map (fun e =>
    (((NumericEnumTemplateData.new e.name).with_values
        e.values).with_enum_package enumPackage).with_enum_converter_package
      convPackage)

/-- The enums_by_name dict (codegen.py line 116): keyed by name, later
entries overwriting earlier ones. -/
def enumsByName (tds : List NumericEnumTemplateData) (n : String) :
    Option NumericEnumTemplateData :=
  tds.reverse.find? (fun d => d.name = n)

/-- _jooq_forced_type_data (lines 182 to 183): the expression is the
table name, a literal backslash-dot, and the field name. -/
def _jooq_forced_type_data (table field typeName : String) :
    String × String :=
  (table ++ "\\." ++ field, typeName)

/-- The field_data loop of generate_jooq_config (lines 194 to 202):
every mapped column yields one forced-type entry, the type name
replaced by the enum fully qualified name when the name is a known
enum. -/
def generate_jooq_field_data (tds : List NumericEnumTemplateData)
    (mappings : List (String × List (String × String))) :
    List (String × String) :=
  mappings.flatMap (fun tm => tm.2.map (fun cm =>
    let fqn :=
      match enumsByName tds cm.2 with
      | some en => en.enum_fqn
      | none => cm.2
    _jooq_forced_type_data tm.1 cm.1 fqn))

/-! ## The schema model root and the DDL compiler

Embedding of MetaData and its ddl method together with
_adapt_model_to_engine (src/ogma/modelutils/sqlalchemywrappers.py lines
190 to 359).  A Model value is the state of one MetaData object: the
tables in the dependency-sorted order the sorted_tables property
produces (the topological sort is performed by sqlalchemy and is a
function of the model alone), the enums, the stored procedures, and the
DDL statements queued on the after_create event.  Python mutates
objects in place, so every embedded operation that could mutate its
MetaData argument returns, next to its result, the state of that
argument after the call. -/

/-- A stored procedure as the DDL path uses it. -/
structure StoredProcDef where
  name : String
  sql : String
deriving Repr, DecidableEq

/-- creation_statement (stored_procedures.py lines 124 to 126): the SQL
wrapped in delimiter-change markers. -/
def StoredProcDef.creation_statement (p : StoredProcDef) : String :=
  String.intercalate "\n" ["DELIMITER //", p.sql ++ "\n//", "DELIMITER ;"]

/-- The state of one MetaData object. -/
structure Model where
  tables : List TableDef
  enums : List EnumDef
  stored_procedures : List StoredProcDef
  afterCreateDdl : List String
deriving Repr, DecidableEq

/-- _visitor_mysql_datetime (sqlalchemywrappers.py lines 190 to 198):
rewrite the generic DateTime column type to MySQL DATETIME with
fractional-second precision three. -/
def visitorMysqlDatetime (t : ColType) : ColType :=
  match t with
  | .dateTime => .mysqlDatetime 3
  | t => t

/-- visit_columns (lines 322 to 332) restricted to type-rewriting
visitors: apply the visitor to every column of every table. -/
def visitColumnTypes (m : Model) (v : ColType → ColType) : Model :=
  { m with tables := m.tables.map (fun t =>
      { t with columns := t.columns.map (fun c => { c with type := v c.type }) }) }

/-- The visitors_per_engine table (line 210). -/
def visitorsPerEngine (engine : String) : List (ColType → ColType) :=
  if engine = "mysql" then [visitorMysqlDatetime] else []

/-- Embedding of _adapt_model_to_engine (lines 201 to 226).  With no
visitors for the engine the model itself is returned and nothing runs.
Otherwise a deep copy is taken (in the pure embedding, the same value,
now independent), the visitors run on the copy, and one after_create
DDL statement per stored procedure is queued on the copy, using the
delimiter-wrapped creation statement for text output and the bare SQL
otherwise.  The second component is the state of the argument after the
call; every mutation targets the copy, so it is the argument itself. -/
def _adapt_model_to_engine (m : Model) (engine : String) (forText : Bool) :
    Model × Model :=
  match visitorsPerEngine engine with
  | [] => (m, m)
  | vs =>
    let modelCopy := vs.foldl visitColumnTypes m
    let modelCopy := { modelCopy with
      afterCreateDdl := modelCopy.afterCreateDdl ++
        m.stored_procedures.map (fun p =>
          if forText then p.creation_statement else p.sql) }
    (modelCopy, m)

/-- The statements the DdlDumper collects (lines 340 to 350): the
compiled text of each table in sorted order, stripped, followed by the
queued after_create statements, stripped.  The compile argument is the
external sqlalchemy dialect compiler for the chosen engine, a pure
function of the table. -/
def ddlStatements (compile : TableDef → String) (m : Model) : List String :=
  m.tables.map (fun t => pyStrip (compile t)) ++ m.afterCreateDdl.map pyStrip

/-- Embedding of MetaData.ddl (lines 334 to 359): adapt the model for
the engine with text output, emit the statements joined by the fixed
separator, and strip trailing whitespace from every line.  The second
component is the state of the MetaData object after the call. -/
def MetaData.ddl (compile : TableDef → String) (engineName : String)
    (m : Model) : String × Model :=
  let p := _adapt_model_to_engine m engineName true
  (multiline_rstrip ⟨joinSep (";\n\n".data) ((ddlStatements compile p.1).map
    String.data)⟩, p.2)

/-! ## Well-formedness of a model, for the duplicate-detection claims

A declarative characterization of the models buildModel accepts, to be
proved equivalent to the imperative construction: every enum name is
fresh with respect to the enum collection, every table name fresh with
respect to the table collections, every value list free of internal
duplicates and of collisions with the enum-instance attributes. -/

/-- The value names of one enum are accepted by the value loop. -/
def ValuesOk (vs : List String) : Prop :=
  vs.Nodup ∧ ∀ v ∈ vs, v ∉ enumInstanceBaseAttrs

/-- The enum names a declaration list declares, in order. -/
def declEnumNames (decls : List ModelDecl) : List String :=
  decls.filterMap fun d =>
    match d with
    | .enumDecl n _ => some n
    | _ => none

/-- The table names a declaration list declares, in order. -/
def declTableNames (decls : List ModelDecl) : List String :=
  decls.filterMap fun d =>
    match d with
    | .tableDecl n => some n
    | _ => none

/-- A declaration list builds without a duplicate error: the enum
names are pairwise distinct and avoid the pre-existing attributes of
the enum collection, the table names are pairwise distinct and avoid
the pre-existing attributes of the table collection, and every value
list is accepted. -/
def ModelWellFormed (decls : List ModelDecl) : Prop :=
  (declEnumNames decls).Nodup ∧
  (∀ n ∈ declEnumNames decls, n ∉ enumCollectionBaseAttrs) ∧
  (declTableNames decls).Nodup ∧
  (∀ n ∈ declTableNames decls, n ∉ tableCollectionBaseAttrs) ∧
  (∀ n vs, ModelDecl.enumDecl n vs ∈ decls → ValuesOk vs)

/-- Acceptance of a declaration list relative to the enum and table
names registered so far, mirroring buildModel one step at a time. -/
def RelWF : List ModelDecl → List String → List String → Prop
  | [], _, _ => True
  | ModelDecl.enumDecl n vs :: rest, es, ts =>
      n ∉ enumCollectionBaseAttrs ∧ n ∉ es ∧ ValuesOk vs ∧
        RelWF rest (es ++ [n]) ts
  | ModelDecl.tableDecl n :: rest, es, ts =>
      n ∉ ts ∧ n ∉ tableCollectionBaseAttrs ∧ RelWF rest es (ts ++ [n])

/-! # Theorems -/

/-- The codes an enum assigns to its values are the initial segment of
the naturals of its length, in declaration order. -/
theorem enumAssignedCodes_map_snd (e : EnumDef) :
    (enumAssignedCodes e).map Prod.snd = List.range e.values.length := by
  simp [enumAssignedCodes, List.map_map, Function.comp_def, List.enum_map_fst]

/-- The value names an enum assigns codes to are its declared values in
order. -/
theorem enumAssignedCodes_map_fst (e : EnumDef) :
    (enumAssignedCodes e).map Prod.fst = e.values := by
  simp [enumAssignedCodes, List.map_map, Function.comp_def, List.enum_map_snd]

/-- C1: for every enumeration declared with N value names the numeric
codes assigned to the values are exactly 0..N-1 in declaration order,
and for every table column typed with that enumeration a check
constraint is appended to the owning table at table-declaration time
whose text enumerates exactly the assigned codes, comma separated, and
whose name is ck_ followed by the table name and the column name. -/
theorem c1_enum_codes_and_check_constraints (e : EnumDef) (tn : String)
    (cols : List ColumnDef) :
    ((enumAssignedCodes e).map Prod.fst = e.values ∧
      (enumAssignedCodes e).map Prod.snd = List.range e.values.length) ∧
    ∀ c ∈ cols, c.type = ColType.integerEnum e →
      e.get_constraint tn c.name ∈ tableEnumConstraints tn cols ∧
      (e.get_constraint tn c.name).text =
        c.name ++ " in (" ++ String.intercalate ","
          ((enumAssignedCodes e).map (fun p => toString p.2)) ++ ")" ∧
      (e.get_constraint tn c.name).name = "ck_" ++ tn ++ "_" ++ c.name := by
  refine ⟨⟨enumAssignedCodes_map_fst e, enumAssignedCodes_map_snd e⟩, ?_⟩
  intro c hc hct
  refine ⟨?_, ?_, rfl⟩
  · exact List.mem_filterMap.mpr ⟨c, hc, by rw [hct]⟩
  · have h : (enumAssignedCodes e).map (fun p => toString p.2) =
        (List.range e.values.length).map toString := by
      rw [show (fun p : String × Nat => toString p.2) =
            (toString ∘ Prod.snd) from rfl, ← List.map_map,
        enumAssignedCodes_map_snd]
    rw [EnumDef.get_constraint, h]

/-- Witness for C1 at the Shop example of the specification: the enum
OrderStatus with three values on column status of table orders yields
the check text status in (0,1,2) named ck_orders_status. -/
theorem c1_witness :
    (⟨"OrderStatus", ["Pending", "Shipped", "Delivered"]⟩ : EnumDef).get_constraint
        "orders" "status" ∈
      tableEnumConstraints "orders"
        [⟨"id", ColType.other "Integer"⟩,
         ⟨"status", ColType.integerEnum ⟨"OrderStatus",
            ["Pending", "Shipped", "Delivered"]⟩⟩] ∧
    (⟨"OrderStatus", ["Pending", "Shipped", "Delivered"]⟩ : EnumDef).get_constraint
        "orders" "status" = ⟨"status in (0,1,2)", "ck_orders_status"⟩ := by
  refine ⟨?_, by decide⟩
  exact ((c1_enum_codes_and_check_constraints
      ⟨"OrderStatus", ["Pending", "Shipped", "Delivered"]⟩ "orders"
      [⟨"id", ColType.other "Integer"⟩,
       ⟨"status", ColType.integerEnum ⟨"OrderStatus",
          ["Pending", "Shipped", "Delivered"]⟩⟩]).2
    ⟨"status", ColType.integerEnum ⟨"OrderStatus",
        ["Pending", "Shipped", "Delivered"]⟩⟩ (by decide) rfl).1

/-- Accumulation of with_values: the dict list gains one entry per
name, numbered consecutively from the current counter, and the counter
advances by the number of names. -/
theorem with_values_spec (names : List String) (d : NumericEnumTemplateData) :
    (d.with_values names)._values =
      d._values ++ (List.enumFrom d._num names).map (fun p => ⟨p.2, p.1⟩) ∧
    (d.with_values names)._num = d._num + names.length := by
  induction names generalizing d with
  | nil => simp [NumericEnumTemplateData.with_values]
  | cons n rest ih =>
    have h := ih (d._add_value n)
    simp only [NumericEnumTemplateData.with_values, List.foldl_cons] at h ⊢
    simp only [NumericEnumTemplateData._add_value] at h ⊢
    rw [h.1, h.2]
    simp [List.enumFrom_cons]
    omega

/-- C10: for an enumeration with at least one declared value the
template-data values query returns the declared (name, number) entries
in order, numbered 0..N-1, with exactly the final entry carrying the
last marker; on an enumeration with zero values the query fails (the
Python code indexes an empty list at minus one, an uncaught
IndexError). -/
theorem c10_values_query_last_marker (nm : String) (names : List String)
    (hne : names ≠ []) :
    (∃ out, ((NumericEnumTemplateData.new nm).with_values names).values = some out ∧
      out.map RenderedValue.valname = names ∧
      out.map RenderedValue.valnum = List.range names.length ∧
      ∃ pre lastv, out = pre ++ [lastv] ∧ lastv.last = true ∧
        ∀ v ∈ pre, v.last = false) ∧
    ((NumericEnumTemplateData.new nm).with_values []).values = none := by
  constructor
  · have hval := (with_values_spec names (NumericEnumTemplateData.new nm)).1
    set vs := ((NumericEnumTemplateData.new nm).with_values names)._values with hvs
    have hvseq : vs = (List.enumFrom 0 names).map
        (fun p => (⟨p.2, p.1⟩ : TemplateValue)) := by
      rw [hval]
      rfl
    have hvsne : vs ≠ [] := by
      rw [hvseq]
      simp only [ne_eq, List.map_eq_nil_iff]
      intro h
      exact hne (by cases names with
        | nil => rfl
        | cons a l => simp [List.enumFrom_cons] at h)
    have hlast : vs.getLast? = some (vs.getLast hvsne) :=
      List.getLast?_eq_getLast vs hvsne
    refine ⟨vs.dropLast.map (fun v => ⟨v.valname, v.valnum, false⟩) ++
      [⟨(vs.getLast hvsne).valname, (vs.getLast hvsne).valnum, true⟩], ?_, ?_, ?_, ?_⟩
    · rw [NumericEnumTemplateData.values, ← hvs, hlast]
    · rw [List.map_append, List.map_map]
      have : vs.map TemplateValue.valname = names := by
        rw [hvseq, List.map_map]
        have : (TemplateValue.valname ∘ fun p : Nat × String => (⟨p.2, p.1⟩ : TemplateValue)) =
            Prod.snd := rfl
        rw [this, List.enumFrom_map_snd]
      calc vs.dropLast.map ((fun v : RenderedValue => v.valname) ∘
              (fun v : TemplateValue => (⟨v.valname, v.valnum, false⟩ : RenderedValue))) ++
            [(vs.getLast hvsne).valname]
          = vs.dropLast.map TemplateValue.valname ++
              [TemplateValue.valname (vs.getLast hvsne)] := rfl
        _ = (vs.dropLast ++ [vs.getLast hvsne]).map TemplateValue.valname := by
              rw [List.map_append]; rfl
        _ = vs.map TemplateValue.valname := by rw [List.dropLast_append_getLast]
        _ = names := this
    · rw [List.map_append, List.map_map]
      have : vs.map TemplateValue.valnum = List.range names.length := by
        rw [hvseq, List.map_map]
        have : (TemplateValue.valnum ∘ fun p : Nat × String => (⟨p.2, p.1⟩ : TemplateValue)) =
            Prod.fst := rfl
        rw [this, List.enumFrom_map_fst]
        simp [List.range_eq_range']
      calc vs.dropLast.map ((fun v : RenderedValue => v.valnum) ∘
              (fun v : TemplateValue => (⟨v.valname, v.valnum, false⟩ : RenderedValue))) ++
            [(vs.getLast hvsne).valnum]
          = vs.dropLast.map TemplateValue.valnum ++
              [TemplateValue.valnum (vs.getLast hvsne)] := rfl
        _ = (vs.dropLast ++ [vs.getLast hvsne]).map TemplateValue.valnum := by
              rw [List.map_append]; rfl
        _ = vs.map TemplateValue.valnum := by rw [List.dropLast_append_getLast]
        _ = List.range names.length := this
    · refine ⟨vs.dropLast.map (fun v => ⟨v.valname, v.valnum, false⟩),
        ⟨(vs.getLast hvsne).valname, (vs.getLast hvsne).valnum, true⟩, rfl, rfl, ?_⟩
      intro v hv
      simp only [List.mem_map] at hv
      obtain ⟨w, _, hw⟩ := hv
      rw [← hw]
  · rfl

/-- Witness for C10 on a three-value enumeration. -/
theorem c10_witness :
    (["Pending", "Shipped", "Delivered"] : List String) ≠ [] ∧
    ((NumericEnumTemplateData.new "OrderStatus").with_values
        ["Pending", "Shipped", "Delivered"]).values =
      some [⟨"Pending", 0, false⟩, ⟨"Shipped", 1, false⟩,
        ⟨"Delivered", 2, true⟩] := by
  refine ⟨by decide, ?_⟩
  obtain ⟨⟨out, hout, -, -, -⟩, -⟩ :=
    c10_values_query_last_marker "OrderStatus"
      ["Pending", "Shipped", "Delivered"] (by decide)
  rw [hout]
  rw [show out = [⟨"Pending", 0, false⟩, ⟨"Shipped", 1, false⟩,
      (⟨"Delivered", 2, true⟩ : RenderedValue)] from by
    have : some out = some [⟨"Pending", 0, false⟩, ⟨"Shipped", 1, false⟩,
        (⟨"Delivered", 2, true⟩ : RenderedValue)] := by rw [← hout]; rfl
    exact Option.some.inj this]

/-- C4: for model source whose parsed node walk contains an import
statement (plain or from-import), validation with imports not permitted
fails with a SandboxViolation whose message reports the line number of
the offending statement and the literal text of that source line; this
is a purely static scan of the source text.  The same source passes
validation when imports are explicitly allowed. -/
theorem c4_sandbox_import_gate (code : String) (nodes : List AstNode)
    (nd : AstNode) (line : String)
    (hfind : nodes.find? (fun n => n.isImport) = some nd)
    (hline : _get_line code nd.lineno = some line) :
    nd ∈ nodes ∧ nd.isImport = true ∧
    validate_model_file false nodes code =
      SandboxResult.violation ("Invalid model: import statement found on line " ++
        toString nd.lineno ++ ":\n" ++ line) ∧
    validate_model_file true nodes code = SandboxResult.passed := by
  refine ⟨List.mem_of_find?_eq_some hfind, ?_, ?_, rfl⟩
  · have := List.find?_some hfind
    simpa using this
  · rw [validate_model_file]
    simp only [if_false, Bool.false_eq_true]
    rw [hfind]
    simp [hline]

/-- Witness for C4: a two-line model source whose second line is import
os is rejected with the message citing line 2 and that literal line,
and accepted when imports are allowed. -/
theorem c4_witness :
    validate_model_file false [⟨false, 1⟩, ⟨true, 2⟩] "Schema(x)\nimport os" =
      SandboxResult.violation
        "Invalid model: import statement found on line 2:\nimport os" ∧
    validate_model_file true [⟨false, 1⟩, ⟨true, 2⟩] "Schema(x)\nimport os" =
      SandboxResult.passed := by
  have h := c4_sandbox_import_gate "Schema(x)\nimport os"
    [⟨false, 1⟩, ⟨true, 2⟩] ⟨true, 2⟩ "import os" (by decide) (by decide)
  exact ⟨h.2.2.1, h.2.2.2⟩

/-- C6 counterexample: the empty string contains no forbidden character
and no dot, yet schema validation rejects it (the regular expression
requires at least one character), against the claim that a set name
containing none of the forbidden characters passes. -/
theorem c6_counterexample :
    (∀ c ∈ "".data, c ∉ invalidSchemaChars ∧ c ≠ '.') ∧
    validate_model (some "") =
      Except.error (SchemaValidationError.invalidSchemaName "") := by
  exact ⟨by decide, rfl⟩

/-- C6 amended: validation fails with MissingSchemaName when no schema
name was set; it fails with InvalidSchemaName when the set name has a
character in the invalid set or contains a dot; and a nonempty set name
with none of the forbidden characters and no dot passes. -/
theorem c6_schema_name_validation (n : String) :
    (validate_model none = Except.error SchemaValidationError.missingSchemaName) ∧
    ((∃ c ∈ n.data, c ∈ invalidSchemaChars ∨ c = '.') →
      validate_model (some n) =
        Except.error (SchemaValidationError.invalidSchemaName n)) ∧
    (n.data ≠ [] → (∀ c ∈ n.data, c ∉ invalidSchemaChars ∧ c ≠ '.') →
      validate_model (some n) = Except.ok ()) := by
  refine ⟨rfl, ?_, ?_⟩
  · rintro ⟨c, hc, hbad⟩
    rw [validate_model]
    have key : (!schemaNameMatches n || n.data.contains '.') = true := by
      rcases hbad with hbad | hbad
      · have hall : n.data.all (fun c => !invalidSchemaChars.contains c) = false :=
          List.all_eq_false.mpr ⟨c, hc, by simp [hbad]⟩
        have hm : schemaNameMatches n = false := by
          rw [schemaNameMatches, hall, Bool.and_false]
        rw [hm]
        rfl
      · subst hbad
        have : n.data.contains '.' = true := by simp [hc]
        rw [this, Bool.or_true]
    rw [if_pos key]
  · intro hne hclean
    rw [validate_model]
    have h1 : schemaNameMatches n = true := by
      rw [schemaNameMatches, Bool.and_eq_true]
      refine ⟨by simpa using hne, List.all_eq_true.mpr ?_⟩
      intro c hc
      simpa using (hclean c hc).1
    have h2 : n.data.contains '.' = false := by
      by_contra hcon
      have : '.' ∈ n.data := by
        have := Bool.of_not_eq_false hcon
        simpa using this
      exact (hclean '.' this).2 rfl
    rw [if_neg (by rw [h1, h2]; simp)]

/-- Witness for C6: the name Shop passes, the name a.b is rejected as
invalid. -/
theorem c6_witness :
    validate_model (some "Shop") = Except.ok () ∧
    validate_model (some "a.b") =
      Except.error (SchemaValidationError.invalidSchemaName "a.b") := by
  constructor
  · exact (c6_schema_name_validation "Shop").2.2 (by decide) (by decide)
  · exact (c6_schema_name_validation "a.b").2.1 ⟨'.', by decide, Or.inr rfl⟩

/-- The value loop accepts a value list exactly when the list has no
internal duplicate and no value collides with the attributes already
present. -/
theorem enumAddValues_ok_iff (en : String) (vs : List String)
    (attrs acc : List String) :
    (∃ r, enumAddValues en attrs acc vs = Except.ok r) ↔
      (vs.Nodup ∧ ∀ v ∈ vs, v ∉ attrs) := by
  induction vs generalizing attrs acc with
  | nil => simp [enumAddValues]
  | cons v rest ih =>
    rw [enumAddValues]
    by_cases hv : v ∈ attrs
    · rw [if_pos (by simp [hv])]
      constructor
      · rintro ⟨r, hr⟩
        cases hr
      · rintro ⟨-, hall⟩
        exact absurd hv (hall v (List.mem_cons_self v rest))
    · rw [if_neg (by simp [hv])]
      rw [ih (v :: attrs) (acc ++ [v])]
      constructor
      · rintro ⟨hnd, hall⟩
        refine ⟨List.nodup_cons.mpr
          ⟨fun hvr => (hall v hvr) (List.mem_cons_self v attrs), hnd⟩, ?_⟩
        intro w hw
        rcases List.mem_cons.mp hw with h | h
        · subst h
          exact hv
        · intro hwa
          exact (hall w h) (List.mem_cons.mpr (Or.inr hwa))
      · rintro ⟨hnd, hall⟩
        obtain ⟨hvr, hnd'⟩ := List.nodup_cons.mp hnd
        refine ⟨hnd', ?_⟩
        intro w hw hwmem
        rcases List.mem_cons.mp hwmem with h | h
        · subst h
          exact hvr hw
        · exact (hall w (List.mem_cons.mpr (Or.inr hw))) h

/-- buildModel' succeeds exactly when the declarations are acceptable
relative to the names the state has registered. -/
theorem buildModel'_ok_iff (decls : List ModelDecl) (st : BuildState) :
    (∃ r, buildModel' st decls = Except.ok r) ↔
      RelWF decls st.enumNames st.tableNames := by
  induction decls generalizing st with
  | nil => simp [buildModel', RelWF]
  | cons d rest ih =>
    cases d with
    | enumDecl n vs =>
      rw [RelWF]
      by_cases hn : n ∈ enumCollectionBaseAttrs ∨ n ∈ st.enumNames
      · have hc : (enumCollectionBaseAttrs ++ st.enumNames).contains n = true := by
          simp [List.mem_append, hn]
        rw [buildModel']
        simp only [buildStep, hc, if_pos]
        constructor
        · rintro ⟨r, hr⟩
          cases hr
        · rintro ⟨hb, he, -⟩
          exact absurd hn (by simp [hb, he])
      · push_neg at hn
        have hc : (enumCollectionBaseAttrs ++ st.enumNames).contains n = false := by
          simp [List.mem_append, hn.1, hn.2]
        rw [buildModel']
        simp only [buildStep, hc, Bool.false_eq_true, if_false]
        cases heq : enumAddValues n enumInstanceBaseAttrs [] vs with
        | error msg =>
          constructor
          · rintro ⟨r, hr⟩
            cases hr
          · rintro ⟨-, -, hok, -⟩
            obtain ⟨r, hr⟩ := (enumAddValues_ok_iff n vs enumInstanceBaseAttrs []).mpr hok
            rw [heq] at hr
            cases hr
        | ok values =>
          have hok : ValuesOk vs :=
            (enumAddValues_ok_iff n vs enumInstanceBaseAttrs []).mp ⟨values, heq⟩
          rw [ih]
          constructor
          · intro h
            exact ⟨hn.1, hn.2, hok, h⟩
          · rintro ⟨-, -, -, h⟩
            exact h
    | tableDecl n =>
      rw [RelWF]
      by_cases hreg : n ∈ st.tableNames
      · have hc : st.tableNames.contains n = true := by simp [hreg]
        rw [buildModel']
        simp only [buildStep, hc, if_pos]
        constructor
        · rintro ⟨r, hr⟩
          cases hr
        · rintro ⟨ht, -⟩
          exact absurd hreg ht
      · have hc : st.tableNames.contains n = false := by simp [hreg]
        by_cases hb : n ∈ tableCollectionBaseAttrs
        · have hc2 : (tableCollectionBaseAttrs ++ st.tableNames).contains n = true := by
            simp [List.mem_append, hb]
          rw [buildModel']
          simp only [buildStep, hc, hc2, Bool.false_eq_true, if_false, if_pos]
          constructor
          · rintro ⟨r, hr⟩
            cases hr
          · rintro ⟨-, hbb, -⟩
            exact absurd hb hbb
        · have hc2 : (tableCollectionBaseAttrs ++ st.tableNames).contains n = false := by
            simp [List.mem_append, hb, hreg]
          rw [buildModel']
          simp only [buildStep, hc, hc2, Bool.false_eq_true, if_false]
          rw [ih]
          constructor
          · intro h
            exact ⟨hreg, hb, h⟩
          · rintro ⟨-, -, h⟩
            exact h

/-- Relative acceptance, characterized declaratively: distinct fresh
enum names, distinct fresh table names, every value list accepted. -/
theorem relWF_iff (decls : List ModelDecl) (es ts : List String) :
    RelWF decls es ts ↔
      ((declEnumNames decls).Nodup ∧
        (∀ n ∈ declEnumNames decls, n ∉ enumCollectionBaseAttrs ∧ n ∉ es)) ∧
      ((declTableNames decls).Nodup ∧
        (∀ n ∈ declTableNames decls, n ∉ tableCollectionBaseAttrs ∧ n ∉ ts)) ∧
      (∀ n vs, ModelDecl.enumDecl n vs ∈ decls → ValuesOk vs) := by
  induction decls generalizing es ts with
  | nil => simp [RelWF, declEnumNames, declTableNames]
  | cons d rest ih =>
    cases d with
    | enumDecl n vs =>
      rw [RelWF, ih]
      simp only [declEnumNames, declTableNames, List.filterMap_cons,
        List.nodup_cons, List.mem_cons, List.mem_append, List.mem_singleton,
        List.not_mem_nil, or_false]
      constructor
      · rintro ⟨hb, he, hv, ⟨⟨hnd, hfresh⟩, htab, hvals⟩⟩
        refine ⟨⟨⟨fun hmem => (hfresh n hmem).2 (Or.inr rfl), hnd⟩, ?_⟩, htab, ?_⟩
        · intro m hm
          rcases hm with hm | hm
          · subst hm
            exact ⟨hb, he⟩
          · have := hfresh m hm
            exact ⟨this.1, fun hme => this.2 (Or.inl hme)⟩
        · intro m vs' hmem
          rcases hmem with hmem | hmem
          · cases hmem
            exact hv
          · exact hvals m vs' hmem
      · rintro ⟨⟨⟨hnmem, hnd⟩, hfresh⟩, htab, hvals⟩
        obtain ⟨hb, he⟩ := hfresh n (Or.inl rfl)
        refine ⟨hb, he, hvals n vs (Or.inl rfl), ⟨hnd, ?_⟩, htab, ?_⟩
        · intro m hm
          have := hfresh m (Or.inr hm)
          refine ⟨this.1, ?_⟩
          rintro (hme | hme)
          · exact this.2 hme
          · exact hnmem (hme ▸ hm)
        · intro m vs' hmem
          exact hvals m vs' (Or.inr hmem)
    | tableDecl n =>
      rw [RelWF, ih]
      simp only [declEnumNames, declTableNames, List.filterMap_cons,
        List.nodup_cons, List.mem_cons, List.mem_append, List.mem_singleton,
        List.not_mem_nil, or_false]
      constructor
      · rintro ⟨ht, hb, ⟨henum, ⟨hnd, hfresh⟩, hvals⟩⟩
        refine ⟨henum, ⟨⟨fun hmem => (hfresh n hmem).2 (Or.inr rfl), hnd⟩, ?_⟩, ?_⟩
        · intro m hm
          rcases hm with hm | hm
          · subst hm
            exact ⟨hb, ht⟩
          · have := hfresh m hm
            exact ⟨this.1, fun hme => this.2 (Or.inl hme)⟩
        · intro m vs' hmem
          rcases hmem with hmem | hmem
          · cases hmem
          · exact hvals m vs' hmem
      · rintro ⟨henum, ⟨⟨hnmem, hnd⟩, hfresh⟩, hvals⟩
        obtain ⟨hb, ht⟩ := hfresh n (Or.inl rfl)
        refine ⟨ht, hb, henum, ⟨hnd, ?_⟩, ?_⟩
        · intro m hm
          have := hfresh m (Or.inr hm)
          refine ⟨this.1, ?_⟩
          rintro (hme | hme)
          · exact this.2 hme
          · exact hnmem (hme ▸ hm)
        · intro m vs' hmem
          exact hvals m vs' (Or.inr hmem)

/-- C5 counterexample: a model whose declared names are pairwise
distinct is nevertheless rejected with the duplicate-definition error,
because the enum name keys coincides with a pre-existing dictionary
attribute of the enum collection. -/
theorem c5_counterexample :
    (["Color", "Red", "keys", "Blue"] : List String).Nodup ∧
    buildModel [ModelDecl.enumDecl "Color" ["Red"],
        ModelDecl.enumDecl "keys" ["Blue"]] =
      Except.error "keys enum already defined" :=
  ⟨by decide, rfl⟩

/-- C5 amended: model construction succeeds exactly when the declared
enum names are pairwise distinct and distinct from the pre-existing
attributes of the enum collection, the table names pairwise distinct
and distinct from the pre-existing attributes of the table collection,
and each value list free of duplicates and of collisions with the
pre-existing enum-instance attributes; in particular any duplicated
enum name, table name, or value name within one enum fails with the
duplicate-definition error, while distinct names outside the reserved
attribute sets build without such an error. -/
theorem c5_duplicate_detection (decls : List ModelDecl) :
    (∃ st, buildModel decls = Except.ok st) ↔ ModelWellFormed decls := by
  rw [buildModel, buildModel'_ok_iff, relWF_iff]
  simp only [List.not_mem_nil, not_false_iff, and_true, ModelWellFormed]
  constructor
  · rintro ⟨⟨h1, h2⟩, ⟨h3, h4⟩, h5⟩
    exact ⟨h1, h2, h3, h4, h5⟩
  · rintro ⟨h1, h2, h3, h4, h5⟩
    exact ⟨⟨h1, h2⟩, ⟨h3, h4⟩, h5⟩

/-- Witness for C5: a model with one enum and one table, all names
distinct and away from the reserved attribute names, builds without a
duplicate error. -/
theorem c5_witness :
    ModelWellFormed [ModelDecl.enumDecl "Color" ["Red", "Green"],
      ModelDecl.tableDecl "orders"] ∧
    ∃ st, buildModel [ModelDecl.enumDecl "Color" ["Red", "Green"],
      ModelDecl.tableDecl "orders"] = Except.ok st := by
  have hwf : ModelWellFormed [ModelDecl.enumDecl "Color" ["Red", "Green"],
      ModelDecl.tableDecl "orders"] := by
    refine ⟨by decide, by decide, by decide, by decide, ?_⟩
    intro n vs hmem
    rcases List.mem_cons.mp hmem with h | h
    · cases h
      exact ⟨by decide, by decide⟩
    · rcases List.mem_cons.mp h with h2 | h2
      · cases h2
      · cases h2
  exact ⟨hwf, (c5_duplicate_detection _).mpr hwf⟩

/-- Registering the lookup tables succeeds and produces one table per
enum, in order, when the derived table names avoid the already
registered ones and are pairwise distinct. -/
theorem registerEnumTables_ok (enums : List EnumDef) (reg : List String)
    (hfresh : ∀ e ∈ enums, _table_name_from_enum e.name ∉ reg)
    (hnodup : (enums.map (fun e => _table_name_from_enum e.name)).Nodup) :
    registerEnumTables enums reg =
      Except.ok (enums.map (fun e =>
        (_table_name_from_enum e.name, lookupRows e))) := by
  induction enums generalizing reg with
  | nil => rfl
  | cons e rest ih =>
    rw [registerEnumTables]
    rw [if_neg (by simp [hfresh e (List.mem_cons_self e rest)])]
    rw [List.map_cons, List.nodup_cons] at hnodup
    rw [ih (reg ++ [_table_name_from_enum e.name]) ?_ hnodup.2]
    · rfl
    · intro e' he'
      rw [List.mem_append, List.mem_singleton]
      rintro (h | h)
      · exact hfresh e' (List.mem_cons.mpr (Or.inr he')) h
      · exact hnodup.1 (h ▸ List.mem_map_of_mem (fun x => _table_name_from_enum x.name) he')

/-- Finding a lookup table by name among the registered tables of
pairwise distinct names returns that table with its rows. -/
theorem find?_enumTables (enums : List EnumDef) (e : EnumDef)
    (he : e ∈ enums)
    (hnodup : (enums.map (fun x => _table_name_from_enum x.name)).Nodup) :
    (enums.map (fun x => (_table_name_from_enum x.name, lookupRows x))).find?
        (fun t => t.1 = _table_name_from_enum e.name) =
      some (_table_name_from_enum e.name, lookupRows e) := by
  induction enums with
  | nil => cases he
  | cons e' rest ih =>
    rw [List.map_cons]
    by_cases heq : _table_name_from_enum e'.name = _table_name_from_enum e.name
    · have hee : e' = e := by
        by_cases hmem : e = e'
        · exact hmem.symm
        · exact List.inj_on_of_nodup_map hnodup (List.mem_cons_self e' rest) he heq
      rw [List.find?_cons_of_pos _ (by simp [heq])]
      rw [hee]
    · rw [List.find?_cons_of_neg _ (by simp [heq])]
      have he2 : e ∈ rest := by
        rcases List.mem_cons.mp he with h | h
        · exact absurd (by rw [h]) heq
        · exact h
      rw [List.map_cons, List.nodup_cons] at hnodup
      exact ih he2 hnodup.2

/-- An enumerate list is pairwise nondecreasing in its first
component. -/
theorem enumFrom_pairwise_fst_le {α : Type} (n : Nat) (l : List α) :
    (List.enumFrom n l).Pairwise (fun a b => a.1 ≤ b.1) := by
  induction l generalizing n with
  | nil => simp
  | cons x xs ih =>
    rw [List.enumFrom_cons]
    refine List.Pairwise.cons ?_ (ih (n + 1))
    rintro ⟨i, b⟩ hb
    have := (List.mem_enumFrom hb).1
    simp only
    omega

/-- Sorting by the value column leaves an already sorted row list
unchanged. -/
theorem sortRowsByValue_sorted_eq (rows : List (Nat × String))
    (h : rows.Pairwise (fun a b => a.1 ≤ b.1)) :
    sortRowsByValue rows = rows := by
  induction rows with
  | nil => rfl
  | cons r rs ih =>
    obtain ⟨hr, htail⟩ := List.pairwise_cons.mp h
    rw [sortRowsByValue, ih htail]
    cases rs with
    | nil => rfl
    | cons q qs =>
      rw [orderedInsertByValue, if_pos (hr q (List.mem_cons_self q qs))]

/-- The rows of a lookup table are already sorted by the value
column. -/
theorem lookupRows_sorted (e : EnumDef) :
    sortRowsByValue (lookupRows e) = lookupRows e :=
  sortRowsByValue_sorted_eq _ (enumFrom_pairwise_fst_le 0 e.values)

/-- After materialization every lookup table reads back as exactly the
value rows of its enum. -/
theorem materialize_read (db : Database) (enums : List EnumDef)
    (hnodup : (enums.map (fun e => _table_name_from_enum e.name)).Nodup) :
    ∃ db', materializeEnums db enums = Except.ok db' ∧
      ∀ e ∈ enums,
        readTable db' (_table_name_from_enum e.name) = some (lookupRows e) := by
  have hreg := registerEnumTables_ok enums [] (by simp) hnodup
  refine ⟨_, by rw [materializeEnums, hreg], ?_⟩
  intro e he
  rw [readTable, List.find?_append]
  have h1 : (db.filter (fun t =>
      !((enums.map (fun x => (_table_name_from_enum x.name, lookupRows x))).map
          Prod.fst).contains t.1)).find?
        (fun t => t.1 = _table_name_from_enum e.name) = none := by
    rw [List.find?_eq_none]
    intro t ht
    have hflt := (List.mem_filter.mp ht).2
    simp only [Bool.not_eq_eq_eq_not, Bool.not_true] at hflt
    intro hcon
    have htn : t.1 = _table_name_from_enum e.name := by simpa using hcon
    have hforall : ∀ x ∈ enums, ¬ _table_name_from_enum x.name = t.1 := by
      simpa using hflt
    exact hforall e he htn.symm
  rw [h1, Option.none_or, find?_enumTables enums e he hnodup]
  rfl

/-- C3 counterexample: the enums AB and Ab have distinct names but the
camel-to-snake transliteration derives the same lookup table name for
both, and materialization fails with the duplicate-table error instead
of creating a populated lookup table per enumeration. -/
theorem c3_counterexample :
    ("AB" : String) ≠ "Ab" ∧
    _table_name_from_enum "AB" = _table_name_from_enum "Ab" ∧
    materializeEnums [] [⟨"AB", ["x"]⟩, ⟨"Ab", ["y"]⟩] =
      Except.error
        "Table enum_ab is already defined for this MetaData instance" :=
  ⟨by decide, rfl, rfl⟩

/-- C3 amended: when the derived lookup table names of the enums are
pairwise distinct, materialization succeeds from any prior database
state; each enum gets a lookup table named enum_ followed by the
camel-to-snake transliteration of its name, with the value and name
columns both non-nullable and unique, the value column integer typed
and the name column string(50) typed; the table holds exactly the
(code, name) pairs of the enum, already in code order, so reading back
sorted by code yields the declared pairs; and re-running
materialization reproduces identical contents. -/
theorem c3_enum_materialization (db : Database) (enums : List EnumDef)
    (hnodup : (enums.map (fun e => _table_name_from_enum e.name)).Nodup) :
    lookupTableColumns = [⟨"value", true, none, false, true⟩,
      ⟨"name", false, some 50, false, true⟩] ∧
    ∃ db', materializeEnums db enums = Except.ok db' ∧
      (∀ e ∈ enums,
        readTable db' (_table_name_from_enum e.name) = some (lookupRows e) ∧
        readTableSortedByValue db' (_table_name_from_enum e.name) =
          some (lookupRows e) ∧
        (lookupRows e).map Prod.fst = List.range e.values.length ∧
        (lookupRows e).map Prod.snd = e.values) ∧
      ∃ db'', materializeEnums db' enums = Except.ok db'' ∧
        ∀ e ∈ enums, readTable db'' (_table_name_from_enum e.name) =
          readTable db' (_table_name_from_enum e.name) := by
  refine ⟨rfl, ?_⟩
  obtain ⟨db', hok, hread⟩ := materialize_read db enums hnodup
  refine ⟨db', hok, ?_, ?_⟩
  · intro e he
    refine ⟨hread e he, ?_, ?_, ?_⟩
    · rw [readTableSortedByValue, hread e he]
      simp only [Option.map_some']
      rw [lookupRows_sorted]
    · rw [lookupRows, List.enum_map_fst]
    · rw [lookupRows, List.enum_map_snd]
  · obtain ⟨db'', hok2, hread2⟩ := materialize_read db' enums hnodup
    exact ⟨db'', hok2, fun e he => by rw [hread2 e he, hread e he]⟩

/-- Witness for C3 at the OrderStatus enum of the specification
example: the lookup table enum_order_status reads back the three
declared pairs in code order. -/
theorem c3_witness :
    materializeEnums [] [⟨"OrderStatus", ["Pending", "Shipped", "Delivered"]⟩] =
      Except.ok [("enum_order_status",
        [(0, "Pending"), (1, "Shipped"), (2, "Delivered")])] ∧
    ∃ db', materializeEnums []
        [⟨"OrderStatus", ["Pending", "Shipped", "Delivered"]⟩] =
          Except.ok db' ∧
      readTable db' (_table_name_from_enum "OrderStatus") =
        some [(0, "Pending"), (1, "Shipped"), (2, "Delivered")] := by
  refine ⟨rfl, ?_⟩
  obtain ⟨-, db', hok, hall, -⟩ := c3_enum_materialization []
    [⟨"OrderStatus", ["Pending", "Shipped", "Delivered"]⟩] (by decide)
  refine ⟨db', hok, ?_⟩
  have h := (hall ⟨"OrderStatus", ["Pending", "Shipped", "Delivered"]⟩
    (List.mem_singleton.mpr rfl)).1
  rw [h]
  rfl

/-- Ordered insertion is a permutation of consing. -/
theorem orderedInsertByKey_perm {α : Type} (p : String × α)
    (l : List (String × α)) :
    (orderedInsertByKey p l).Perm (p :: l) := by
  induction l with
  | nil => exact List.Perm.refl _
  | cons q qs ih =>
    rw [orderedInsertByKey]
    by_cases h : pyStrLe p.1 q.1
    · rw [if_pos h]
    · rw [if_neg h]
      exact (ih.cons q).trans (List.Perm.swap p q qs)

/-- The key sort is a permutation of its input. -/
theorem sortPairsByKey_perm {α : Type} (ps : List (String × α)) :
    (sortPairsByKey ps).Perm ps := by
  induction ps with
  | nil => exact List.Perm.refl _
  | cons p rest ih =>
    rw [sortPairsByKey]
    exact (orderedInsertByKey_perm p (sortPairsByKey rest)).trans (ih.cons p)

/-- The key sort preserves length. -/
theorem sortPairsByKey_length {α : Type} (ps : List (String × α)) :
    (sortPairsByKey ps).length = ps.length :=
  (sortPairsByKey_perm ps).length_eq

/-- Membership in the type mappings: an entry is exactly a table of the
model with a nonempty entry list, the entries sorted by column name. -/
theorem mem_get_type_mappings (tables : List TableDef)
    (filter : List TypeFamily) (tn : String) (cs : List (String × String)) :
    (tn, cs) ∈ get_type_mappings tables filter ↔
      ∃ t ∈ tables, t.name = tn ∧ tableTypeEntries filter t ≠ [] ∧
        cs = sortPairsByKey (tableTypeEntries filter t) := by
  rw [get_type_mappings]
  simp only [List.mem_map]
  constructor
  · rintro ⟨p, hp, heq⟩
    have hpraw := ((sortPairsByKey_perm _).mem_iff).mp hp
    obtain ⟨t, ht, hft⟩ := List.mem_filterMap.mp hpraw
    by_cases hcs : (tableTypeEntries filter t).isEmpty
    · rw [if_pos hcs] at hft
      cases hft
    · rw [if_neg hcs] at hft
      obtain ⟨h1, h2⟩ := Prod.mk.injEq .. ▸ Option.some.inj hft
      obtain ⟨h3, h4⟩ := Prod.mk.injEq .. ▸ heq
      refine ⟨t, ht, by rw [← h3, ← h1], ?_, by rw [← h4, ← h2]⟩
      intro hnil
      exact hcs (by simp [hnil])
  · rintro ⟨t, ht, rfl, hne, rfl⟩
    refine ⟨(t.name, tableTypeEntries filter t), ?_, rfl⟩
    apply ((sortPairsByKey_perm _).mem_iff).mpr
    apply List.mem_filterMap.mpr
    refine ⟨t, ht, ?_⟩
    rw [if_neg (by simpa [List.isEmpty_iff] using hne)]

/-- With the enum-only filter a table contributes entries exactly when
it has an enum-typed column. -/
theorem tableTypeEntries_enum_ne_nil (t : TableDef) :
    tableTypeEntries [TypeFamily.enum] t ≠ [] ↔
      ∃ c ∈ t.columns, ∃ e, c.type = ColType.integerEnum e := by
  rw [tableTypeEntries, Ne, List.filterMap_eq_nil_iff]
  push_neg
  constructor
  · rintro ⟨c, hc, hne⟩
    refine ⟨c, hc, ?_⟩
    cases hct : c.type with
    | integerEnum e => exact ⟨e, rfl⟩
    | _ => rw [hct] at hne; simp [typeMappingName] at hne
  · rintro ⟨c, hc, e, hct⟩
    exact ⟨c, hc, by rw [hct]; simp [typeMappingName]⟩

/-- The lookup dict built from the enums maps every declared enum name
to the derived lookup table name. -/
theorem dictGet_enumTableLookup (enums : List EnumDef) (en : String)
    (hen : en ∈ enums.map EnumDef.name) :
    dictGet (enumTableLookupFor enums) en = some (_table_name_from_enum en) := by
  rw [dictGet, enumTableLookupFor]
  have hsome : ((enums.map (fun e => (e.name, _table_name_from_enum e.name))).reverse.find?
      (fun p => p.1 = en)).isSome := by
    rw [List.find?_isSome]
    obtain ⟨e, he, hname⟩ := List.mem_map.mp hen
    exact ⟨(e.name, _table_name_from_enum e.name),
      List.mem_reverse.mpr (List.mem_map_of_mem _ he), by simp [hname]⟩
  obtain ⟨x, hx⟩ := Option.isSome_iff_exists.mp hsome
  have hpx : x.1 = en := by simpa using List.find?_some hx
  have hmem := List.mem_of_find?_eq_some hx
  rw [List.mem_reverse] at hmem
  obtain ⟨e, -, hxe⟩ := List.mem_map.mp hmem
  rw [hx]
  have hx2 : x.2 = _table_name_from_enum en := by
    rw [← hxe] at hpx ⊢
    simp only at hpx ⊢
    rw [hpx]
  simp only [Option.map_some']
  rw [hx2]

/-- C7: with the enum-only filter, view generation emits exactly one
CREATE OR REPLACE VIEW statement per base table having at least one
enum-typed column, and none for tables without one; the view is named
enumed_ table _view, selects t.* plus one lookup-name column aliased
column_name per enum column, and left-joins the lookup table of each
enum column on the stored code equalling the lookup value column, one
join per enum column. -/
theorem c7_enum_views (tables : List TableDef) (enums : List EnumDef)
    (htab : (tables.map TableDef.name).Nodup) :
    (_generate_views (enumTableLookupFor enums)
        (get_type_mappings tables [TypeFamily.enum])).length =
      (get_type_mappings tables [TypeFamily.enum]).length ∧
    (∀ en ∈ enums.map EnumDef.name,
      dictGet (enumTableLookupFor enums) en =
        some (_table_name_from_enum en)) ∧
    (∀ t ∈ tables,
      ((∃ cs, (t.name, cs) ∈ get_type_mappings tables [TypeFamily.enum]) ↔
        ∃ c ∈ t.columns, ∃ e, c.type = ColType.integerEnum e)) ∧
    (∀ t ∈ tables, ∀ cs,
      (t.name, cs) ∈ get_type_mappings tables [TypeFamily.enum] →
      cs = sortPairsByKey (tableTypeEntries [TypeFamily.enum] t) ∧
      cs ≠ [] ∧ cs.length = (tableTypeEntries [TypeFamily.enum] t).length ∧
      viewQuery (enumTableLookupFor enums) t.name cs ∈
        _generate_views (enumTableLookupFor enums)
          (get_type_mappings tables [TypeFamily.enum]) ∧
      viewQuery (enumTableLookupFor enums) t.name cs =
        "CREATE OR REPLACE VIEW " ++ ("enumed_" ++ t.name ++ "_view") ++
          " AS SELECT t.*, " ++
          String.intercalate ", " (cs.map (fun q =>
            pyFormatOptStr (dictGet (enumTableLookupFor enums) q.2) ++
              ".name as " ++ q.1 ++ "_name")) ++
          " FROM " ++ t.name ++ " t " ++
          String.intercalate " " (cs.map (fun q =>
            "LEFT JOIN " ++
              pyFormatOptStr (dictGet (enumTableLookupFor enums) q.2) ++
              " ON t." ++ q.1 ++ " = " ++
              pyFormatOptStr (dictGet (enumTableLookupFor enums) q.2) ++
              ".value"))) := by
  refine ⟨by rw [_generate_views, List.length_map], ?_, ?_, ?_⟩
  · intro en hen
    exact dictGet_enumTableLookup enums en hen
  · intro t ht
    rw [← tableTypeEntries_enum_ne_nil t]
    constructor
    · rintro ⟨cs, hcs⟩
      obtain ⟨t', ht', hname, hne, -⟩ :=
        (mem_get_type_mappings tables [TypeFamily.enum] t.name cs).mp hcs
      have : t' = t := List.inj_on_of_nodup_map htab ht' ht hname
      rw [← this]
      exact hne
    · intro hne
      exact ⟨sortPairsByKey (tableTypeEntries [TypeFamily.enum] t),
        (mem_get_type_mappings tables [TypeFamily.enum] t.name _).mpr
          ⟨t, ht, rfl, hne, rfl⟩⟩
  · intro t ht cs hcs
    obtain ⟨t', ht', hname, hne, hsort⟩ :=
      (mem_get_type_mappings tables [TypeFamily.enum] t.name cs).mp hcs
    have htt : t' = t := List.inj_on_of_nodup_map htab ht' ht hname
    subst htt
    refine ⟨hsort, ?_, ?_, ?_, rfl⟩
    · rw [hsort]
      intro hnil
      apply hne
      have hperm := sortPairsByKey_perm (tableTypeEntries [TypeFamily.enum] t')
      rw [hnil] at hperm
      exact hperm.symm.eq_nil
    · rw [hsort]
      exact sortPairsByKey_length _
    · rw [_generate_views]
      exact List.mem_map.mpr ⟨(t'.name, cs), hcs, rfl⟩

/-- Witness for C7 at the Shop example: the orders table with its enum
column status yields exactly the view statement of the specification
example, and the orders table appears in the enum usage mapping. -/
theorem c7_witness :
    _generate_views
        (enumTableLookupFor [⟨"OrderStatus", ["Pending", "Shipped", "Delivered"]⟩])
        (get_type_mappings
          [⟨"orders", [⟨"id", ColType.other "Integer"⟩,
            ⟨"status", ColType.integerEnum
              ⟨"OrderStatus", ["Pending", "Shipped", "Delivered"]⟩⟩]⟩]
          [TypeFamily.enum]) =
      [String.append "CREATE OR REPLACE VIEW enumed_orders_view AS SELECT t.*, "
        "enum_order_status.name as status_name FROM orders t LEFT JOIN enum_order_status ON t.status = enum_order_status.value"] ∧
    ∃ cs, ("orders", cs) ∈ get_type_mappings
        [⟨"orders", [⟨"id", ColType.other "Integer"⟩,
          ⟨"status", ColType.integerEnum
            ⟨"OrderStatus", ["Pending", "Shipped", "Delivered"]⟩⟩]⟩]
        [TypeFamily.enum] := by
  constructor
  · rfl
  · have h := (c7_enum_views
      [⟨"orders", [⟨"id", ColType.other "Integer"⟩,
        ⟨"status", ColType.integerEnum
          ⟨"OrderStatus", ["Pending", "Shipped", "Delivered"]⟩⟩]⟩]
      [⟨"OrderStatus", ["Pending", "Shipped", "Delivered"]⟩]
      (by decide)).2.2.1
      ⟨"orders", [⟨"id", ColType.other "Integer"⟩,
        ⟨"status", ColType.integerEnum
          ⟨"OrderStatus", ["Pending", "Shipped", "Delivered"]⟩⟩]⟩
      (List.mem_singleton.mpr rfl)
    exact h.mpr ⟨⟨"status", ColType.integerEnum
      ⟨"OrderStatus", ["Pending", "Shipped", "Delivered"]⟩⟩,
      by decide, ⟨"OrderStatus", ["Pending", "Shipped", "Delivered"]⟩, rfl⟩

/-- with_values and the package setters do not change the name, and
with_values does not change the packages. -/
theorem with_values_preserves_name_package (names : List String)
    (d : NumericEnumTemplateData) :
    (d.with_values names).name = d.name ∧
    (d.with_values names)._package = d._package := by
  induction names generalizing d with
  | nil => exact ⟨rfl, rfl⟩
  | cons n rest ih =>
    have h := ih (d._add_value n)
    simpa [NumericEnumTemplateData.with_values,
      NumericEnumTemplateData._add_value] using h

/-- Looking a declared enum name up among the adjusted template data
finds an entry whose fully qualified name is the enum package, a dot,
and the enum name. -/
theorem enumsByName_adjusted (enums : List EnumDef) (pkg cpkg en : String)
    (hen : en ∈ enums.map EnumDef.name) :
    ∃ d, enumsByName (_adjust_enums_from_model enums pkg cpkg) en = some d ∧
      d.enum_fqn = pkg ++ "." ++ en := by
  have hadj : ∀ e : EnumDef,
      ((((NumericEnumTemplateData.new e.name).with_values
          e.values).with_enum_package pkg).with_enum_converter_package cpkg).name =
        e.name ∧
      ((((NumericEnumTemplateData.new e.name).with_values
          e.values).with_enum_package pkg).with_enum_converter_package cpkg)._package =
        some pkg := by
    intro e
    have h := with_values_preserves_name_package e.values
      (NumericEnumTemplateData.new e.name)
    constructor
    · simpa [NumericEnumTemplateData.with_enum_converter_package,
        NumericEnumTemplateData.with_enum_package] using h.1
    · simp [NumericEnumTemplateData.with_enum_converter_package,
        NumericEnumTemplateData.with_enum_package]
  rw [enumsByName]
  have hsome : (((_adjust_enums_from_model enums pkg cpkg).reverse).find?
      (fun d => d.name = en)).isSome := by
    rw [List.find?_isSome]
    obtain ⟨e, he, hname⟩ := List.mem_map.mp hen
    refine ⟨(((NumericEnumTemplateData.new e.name).with_values
        e.values).with_enum_package pkg).with_enum_converter_package cpkg,
      ?_, ?_⟩
    · rw [List.mem_reverse, _adjust_enums_from_model]
      exact List.mem_map_of_mem _ he
    · rw [(hadj e).1]
      simp [hname]
  obtain ⟨d, hd⟩ := Option.isSome_iff_exists.mp hsome
  have hdn : d.name = en := by simpa using List.find?_some hd
  have hdm := List.mem_of_find?_eq_some hd
  rw [List.mem_reverse, _adjust_enums_from_model] at hdm
  obtain ⟨e, -, hde⟩ := List.mem_map.mp hdm
  refine ⟨d, hd, ?_⟩
  rw [NumericEnumTemplateData.enum_fqn, hdn]
  rw [show d._package = some pkg from by rw [← hde]; exact (hadj e).2]
  rfl

/-- C8: with the default type filter, every enum-typed column of the
model appears in the generator-configuration field data mapped to the
fully qualified enum type name (enum package, a dot, the enum name) and
never to the raw column type name; boolean columns are included in the
document; binary columns are excluded from it. -/
theorem c8_jooq_type_mappings (tables : List TableDef) (enums : List EnumDef)
    (pkg cpkg : String) (htab : (tables.map TableDef.name).Nodup) :
    (∀ t ∈ tables, ∀ c ∈ t.columns, ∀ e, c.type = ColType.integerEnum e →
      e ∈ enums →
      (t.name ++ "\\." ++ c.name, pkg ++ "." ++ e.name) ∈
        generate_jooq_field_data (_adjust_enums_from_model enums pkg cpkg)
          (get_type_mappings tables defaultTypeFilter) ∧
      pkg ++ "." ++ e.name ≠ e.name) ∧
    (∀ t ∈ tables, ∀ c ∈ t.columns, c.type = ColType.boolean →
      ∃ nm, (t.name ++ "\\." ++ c.name, nm) ∈
        generate_jooq_field_data (_adjust_enums_from_model enums pkg cpkg)
          (get_type_mappings tables defaultTypeFilter)) ∧
    (∀ t ∈ tables, (t.columns.map ColumnDef.name).Nodup →
      ∀ c ∈ t.columns, c.type = ColType.binary →
      ∀ cs, (t.name, cs) ∈ get_type_mappings tables defaultTypeFilter →
        ∀ nm, (c.name, nm) ∉ cs) := by
  have hmem_entry : ∀ t ∈ tables, ∀ c ∈ t.columns, ∀ nm,
      typeMappingName defaultTypeFilter c.type = some nm →
      ∃ cs, (t.name, cs) ∈ get_type_mappings tables defaultTypeFilter ∧
        (c.name, nm) ∈ cs := by
    intro t ht c hc nm hnm
    have hent : (c.name, nm) ∈ tableTypeEntries defaultTypeFilter t :=
      List.mem_filterMap.mpr ⟨c, hc, by rw [hnm]; rfl⟩
    have hne : tableTypeEntries defaultTypeFilter t ≠ [] := by
      intro hnil
      rw [hnil] at hent
      cases hent
    refine ⟨sortPairsByKey (tableTypeEntries defaultTypeFilter t),
      (mem_get_type_mappings tables defaultTypeFilter t.name _).mpr
        ⟨t, ht, rfl, hne, rfl⟩, ?_⟩
    exact ((sortPairsByKey_perm _).mem_iff).mpr hent
  have hfd : ∀ tn cs, (tn, cs) ∈ get_type_mappings tables defaultTypeFilter →
      ∀ cn nm, (cn, nm) ∈ cs →
      (tn ++ "\\." ++ cn,
        match enumsByName (_adjust_enums_from_model enums pkg cpkg) nm with
        | some en => en.enum_fqn
        | none => nm) ∈
        generate_jooq_field_data (_adjust_enums_from_model enums pkg cpkg)
          (get_type_mappings tables defaultTypeFilter) := by
    intro tn cs hcs cn nm hmem
    rw [generate_jooq_field_data]
    apply List.mem_flatMap.mpr
    refine ⟨(tn, cs), hcs, ?_⟩
    simp only [List.mem_map]
    exact ⟨(cn, nm), hmem, rfl⟩
  refine ⟨?_, ?_, ?_⟩
  · intro t ht c hc e hct he
    constructor
    · obtain ⟨cs, hcs, hmem⟩ := hmem_entry t ht c hc e.name
        (by rw [hct]; rfl)
      have h := hfd t.name cs hcs c.name e.name hmem
      obtain ⟨d, hd, hfqn⟩ := enumsByName_adjusted enums pkg cpkg e.name
        (List.mem_map_of_mem _ he)
      rw [hd] at h
      simpa only [hfqn] using h
    · intro hcon
      have := congrArg String.length hcon
      rw [String.length_append, String.length_append] at this
      have h1 : ("." : String).length = 1 := rfl
      omega
  · intro t ht c hc hct
    obtain ⟨cs, hcs, hmem⟩ := hmem_entry t ht c hc "BOOLEAN"
      (by rw [hct]; rfl)
    exact ⟨_, hfd t.name cs hcs c.name "BOOLEAN" hmem⟩
  · intro t ht hcols c hc hct cs hcs nm hmem
    obtain ⟨t', ht', hname, -, hsort⟩ :=
      (mem_get_type_mappings tables defaultTypeFilter t.name cs).mp hcs
    have htt : t' = t := List.inj_on_of_nodup_map htab ht' ht hname
    subst htt
    rw [hsort] at hmem
    have hent := ((sortPairsByKey_perm _).mem_iff).mp hmem
    obtain ⟨c', hc', hc'some⟩ := List.mem_filterMap.mp hent
    have hcname : c'.name = c.name := by
      cases hopt : typeMappingName defaultTypeFilter c'.type with
      | none => rw [hopt] at hc'some; cases hc'some
      | some v =>
        rw [hopt] at hc'some
        simpa using congrArg Prod.fst (Option.some.inj hc'some)
    have hcc : c' = c := List.inj_on_of_nodup_map hcols hc' hc hcname
    rw [hcc, hct] at hc'some
    cases hc'some

/-- Witness for C8: a table with an enum column, a boolean column and a
binary column produces field data mapping the enum column to the fully
qualified enum name and the boolean column to BOOLEAN, with the binary
column absent. -/
theorem c8_witness :
    generate_jooq_field_data
        (_adjust_enums_from_model
          [⟨"OrderStatus", ["Pending", "Shipped", "Delivered"]⟩]
          "com.shop.enums" "com.shop.conv")
        (get_type_mappings
          [⟨"orders", [⟨"id", ColType.other "Integer"⟩,
            ⟨"status", ColType.integerEnum
              ⟨"OrderStatus", ["Pending", "Shipped", "Delivered"]⟩⟩,
            ⟨"active", ColType.boolean⟩,
            ⟨"payload", ColType.binary⟩]⟩] defaultTypeFilter) =
      [("orders\\.active", "BOOLEAN"),
       ("orders\\.status", "com.shop.enums.OrderStatus")] ∧
    ("orders\\.status", "com.shop.enums.OrderStatus") ∈
      generate_jooq_field_data
        (_adjust_enums_from_model
          [⟨"OrderStatus", ["Pending", "Shipped", "Delivered"]⟩]
          "com.shop.enums" "com.shop.conv")
        (get_type_mappings
          [⟨"orders", [⟨"id", ColType.other "Integer"⟩,
            ⟨"status", ColType.integerEnum
              ⟨"OrderStatus", ["Pending", "Shipped", "Delivered"]⟩⟩,
            ⟨"active", ColType.boolean⟩,
            ⟨"payload", ColType.binary⟩]⟩] defaultTypeFilter) := by
  refine ⟨rfl, ?_⟩
  exact ((c8_jooq_type_mappings
      [⟨"orders", [⟨"id", ColType.other "Integer"⟩,
        ⟨"status", ColType.integerEnum
          ⟨"OrderStatus", ["Pending", "Shipped", "Delivered"]⟩⟩,
        ⟨"active", ColType.boolean⟩,
        ⟨"payload", ColType.binary⟩]⟩]
      [⟨"OrderStatus", ["Pending", "Shipped", "Delivered"]⟩]
      "com.shop.enums" "com.shop.conv" (by decide)).1
    ⟨"orders", [⟨"id", ColType.other "Integer"⟩,
      ⟨"status", ColType.integerEnum
        ⟨"OrderStatus", ["Pending", "Shipped", "Delivered"]⟩⟩,
      ⟨"active", ColType.boolean⟩,
      ⟨"payload", ColType.binary⟩]⟩ (List.mem_singleton.mpr rfl)
    ⟨"status", ColType.integerEnum
      ⟨"OrderStatus", ["Pending", "Shipped", "Delivered"]⟩⟩ (by decide)
    ⟨"OrderStatus", ["Pending", "Shipped", "Delivered"]⟩ rfl
    (List.mem_singleton.mpr rfl)).1

/-- splitNl never returns an empty list of pieces. -/
theorem splitNl_ne_nil (cs : List Char) : splitNl cs ≠ [] := by
  induction cs with
  | nil => simp [splitNl]
  | cons c rest ih =>
    rw [splitNl]
    by_cases h : c = '\n'
    · simp [h]
    · rw [if_neg h]
      cases hs : splitNl rest with
      | nil => simp
      | cons l ls => simp

/-- Dropping a prefix twice is the same as dropping it once. -/
theorem dropWhile_self_idem {α : Type} (p : α → Bool) (l : List α) :
    (l.dropWhile p).dropWhile p = l.dropWhile p := by
  induction l with
  | nil => rfl
  | cons a l ih =>
    rw [List.dropWhile_cons]
    by_cases h : p a
    · rw [if_pos h]
      exact ih
    · rw [if_neg h, List.dropWhile_cons, if_neg h]

/-- rstrip is idempotent. -/
theorem rstripChars_idem (cs : List Char) :
    rstripChars (rstripChars cs) = rstripChars cs := by
  rw [rstripChars, rstripChars, List.reverse_reverse, dropWhile_self_idem]

/-- Every character of the rstripped list is a character of the
original. -/
theorem mem_rstripChars {cs : List Char} {c : Char}
    (h : c ∈ rstripChars cs) : c ∈ cs := by
  rw [rstripChars, List.mem_reverse] at h
  exact List.mem_reverse.mp ((List.dropWhile_sublist pyIsSpace).mem h)

/-- The pieces of splitNl contain no newline. -/
theorem splitNl_no_newline (cs : List Char) :
    ∀ l ∈ splitNl cs, '\n' ∉ l := by
  induction cs with
  | nil =>
    intro l hl
    simp only [splitNl, List.mem_singleton] at hl
    subst hl
    simp
  | cons c rest ih =>
    intro l hl
    rw [splitNl] at hl
    by_cases h : c = '\n'
    · rw [if_pos h] at hl
      rcases List.mem_cons.mp hl with h1 | h1
      · subst h1
        simp
      · exact ih l h1
    · rw [if_neg h] at hl
      cases hs : splitNl rest with
      | nil => exact absurd hs (splitNl_ne_nil rest)
      | cons l0 ls =>
        rw [hs] at hl
        rcases List.mem_cons.mp hl with h1 | h1
        · subst h1
          intro hmem
          rcases List.mem_cons.mp hmem with h2 | h2
          · exact h h2.symm
          · exact ih l0 (by rw [hs]; exact List.mem_cons_self l0 ls) h2
        · exact ih l (by rw [hs]; exact List.mem_cons_of_mem l0 h1)

/-- The lines of splitlines contain no newline. -/
theorem splitlinesChars_no_newline (cs : List Char) :
    ∀ l ∈ splitlinesChars cs, '\n' ∉ l := by
  intro l hl
  cases cs with
  | nil => simp [splitlinesChars] at hl
  | cons c rest =>
    simp only [splitlinesChars] at hl
    by_cases hlast : (splitNl (c :: rest)).getLast? = some []
    · rw [if_pos hlast] at hl
      exact splitNl_no_newline (c :: rest) l (List.dropLast_subset _ hl)
    · rw [if_neg hlast] at hl
      exact splitNl_no_newline (c :: rest) l hl

/-- A newline-free list splits into itself as the only piece. -/
theorem splitNl_of_no_newline (l : List Char) (h : '\n' ∉ l) :
    splitNl l = [l] := by
  induction l with
  | nil => rfl
  | cons c rest ih =>
    have hcn : c ≠ '\n' := by
      intro hc
      apply h
      rw [hc]
      exact List.mem_cons_self _ _
    rw [splitNl, if_neg hcn]
    rw [ih (fun hm => h (List.mem_cons_of_mem c hm))]

/-- Splitting a newline-free piece joined by a newline to a remainder
peels off the piece. -/
theorem splitNl_append_newline (l rest : List Char) (h : '\n' ∉ l) :
    splitNl (l ++ '\n' :: rest) = l :: splitNl rest := by
  induction l with
  | nil => simp [splitNl]
  | cons c l' ih =>
    have hcn : c ≠ '\n' := by
      intro hc
      apply h
      rw [hc]
      exact List.mem_cons_self _ _
    rw [List.cons_append, splitNl, if_neg hcn]
    rw [ih (fun hm => h (List.mem_cons_of_mem c hm))]

/-- Splitting the newline join of newline-free pieces recovers the
pieces. -/
theorem splitNl_joinSep (ls : List (List Char)) (hne : ls ≠ [])
    (h : ∀ l ∈ ls, '\n' ∉ l) :
    splitNl (joinSep ['\n'] ls) = ls := by
  induction ls with
  | nil => cases hne rfl
  | cons l rest ih =>
    cases rest with
    | nil =>
      show splitNl (joinSep ['\n'] [l]) = [l]
      rw [show joinSep ['\n'] [l] = l from rfl]
      exact splitNl_of_no_newline l (h l (List.mem_singleton.mpr rfl))
    | cons l2 rest2 =>
      have hjoin : joinSep ['\n'] (l :: l2 :: rest2) =
          l ++ '\n' :: joinSep ['\n'] (l2 :: rest2) := by
        show l ++ ['\n'] ++ joinSep ['\n'] (l2 :: rest2) =
          l ++ '\n' :: joinSep ['\n'] (l2 :: rest2)
        simp
      rw [hjoin]
      rw [splitNl_append_newline _ _ (h l (List.mem_cons_self l _))]
      rw [ih (List.cons_ne_nil l2 rest2) (fun x hx => h x (List.mem_cons_of_mem l hx))]

/-- Every line of the multiline rstrip output is rstrip-fixed: it
carries no trailing whitespace. -/
theorem multilineRstrip_lines_clean (cs : List Char) :
    ∀ l ∈ splitNl (multilineRstripChars cs), rstripChars l = l := by
  intro l hl
  rw [multilineRstripChars] at hl
  cases hps : splitlinesChars cs with
  | nil =>
    rw [hps] at hl
    simp only [List.map_nil] at hl
    have : l = [] := by simpa [joinSep, splitNl] using hl
    rw [this]
    rfl
  | cons p ps =>
    rw [hps] at hl
    rw [splitNl_joinSep _ (by simp) ?hnn] at hl
    case hnn =>
      intro x hx
      obtain ⟨q, hq, hqx⟩ := List.mem_map.mp hx
      have hqn : '\n' ∉ q := splitlinesChars_no_newline cs q (by rw [hps]; exact hq)
      rw [← hqx]
      intro hmem
      exact hqn (mem_rstripChars hmem)
    obtain ⟨q, hq, hql⟩ := List.mem_map.mp hl
    rw [← hql, rstripChars_idem]

/-- C2: DDL compilation is deterministic (equal model and dialect
compiler give byte-identical text), the output is the fixed-separator
join of the per-table compiled statements of the adapted model followed
by its queued statements, the per-table statements appear in the order
of the dependency-sorted table list, and no output line carries
trailing whitespace. -/
theorem c2_ddl_deterministic_clean (compile : TableDef → String)
    (engineName : String) (m m2 : Model) (hm : m2 = m) :
    (MetaData.ddl compile engineName m).1 =
      (MetaData.ddl compile engineName m2).1 ∧
    (MetaData.ddl compile engineName m).1 =
      multiline_rstrip ⟨joinSep (";\n\n".data)
        ((ddlStatements compile
          (_adapt_model_to_engine m engineName true).1).map String.data)⟩ ∧
    (∀ i, (hi : i < (_adapt_model_to_engine m engineName true).1.tables.length) →
      (ddlStatements compile (_adapt_model_to_engine m engineName true).1).get? i =
        some (pyStrip (compile
          ((_adapt_model_to_engine m engineName true).1.tables.get ⟨i, hi⟩)))) ∧
    (∀ l ∈ splitNl (MetaData.ddl compile engineName m).1.data,
      rstripChars l = l) := by
  subst hm
  refine ⟨rfl, rfl, ?_, ?_⟩
  · intro i hi
    rw [ddlStatements]
    rw [List.get?_eq_getElem?]
    rw [List.getElem?_append_left (by simpa using hi)]
    rw [List.getElem?_map]
    rw [List.getElem?_eq_getElem hi]
    rfl
  · intro l hl
    exact multilineRstrip_lines_clean _ l hl

/-- Witness for C2 on a one-table model with a stored procedure,
compiled with a dialect that emits trailing blanks: the output is the
cleaned join and its single lines are rstrip-fixed. -/
theorem c2_witness :
    (MetaData.ddl (fun t => "CREATE TABLE " ++ t.name ++ "  ") "mysql"
        ⟨[⟨"a", []⟩], [], [⟨"p", "BODY"⟩], []⟩).1 =
      "CREATE TABLE a;\n\nDELIMITER //\nBODY\n//\nDELIMITER ;" ∧
    rstripChars ("CREATE TABLE a;".data) = "CREATE TABLE a;".data := by
  constructor
  · rfl
  · exact (c2_ddl_deterministic_clean
      (fun t => "CREATE TABLE " ++ t.name ++ "  ") "mysql"
      ⟨[⟨"a", []⟩], [], [⟨"p", "BODY"⟩], []⟩
      ⟨[⟨"a", []⟩], [], [⟨"p", "BODY"⟩], []⟩ rfl).2.2.2
      ("CREATE TABLE a;".data) (by decide)

/-- C9: generating DDL leaves the canonical model unchanged: the model
object the call returns to its caller is the argument itself with
tables, enums and stored procedures intact, because the per-engine
adaptation (DateTime columns rewritten to DATETIME(3), stored-procedure
statements queued as after-create hooks) is applied only to the deep
copy, and an engine with no registered visitors skips adaptation
entirely. -/
theorem c9_ddl_no_mutation (compile : TableDef → String)
    (engineName : String) (m : Model) :
    (MetaData.ddl compile engineName m).2 = m ∧
    ((MetaData.ddl compile engineName m).2.tables = m.tables ∧
      (MetaData.ddl compile engineName m).2.enums = m.enums ∧
      (MetaData.ddl compile engineName m).2.stored_procedures =
        m.stored_procedures) ∧
    (_adapt_model_to_engine m "mysql" true).1.tables =
      m.tables.map (fun t =>
        TableDef.mk t.name (t.columns.map (fun c =>
          ColumnDef.mk c.name (visitorMysqlDatetime c.type)))) ∧
    (_adapt_model_to_engine m "mysql" true).1.afterCreateDdl =
      m.afterCreateDdl ++
        m.stored_procedures.map StoredProcDef.creation_statement ∧
    (_adapt_model_to_engine m "mysql" true).1.enums = m.enums ∧
    (_adapt_model_to_engine m "mysql" true).2 = m ∧
    ∀ engine2, visitorsPerEngine engine2 = [] →
      _adapt_model_to_engine m engine2 true = (m, m) := by
  have hsnd : (_adapt_model_to_engine m engineName true).2 = m := by
    rw [_adapt_model_to_engine]
    cases visitorsPerEngine engineName with
    | nil => rfl
    | cons v vs => rfl
  have hddl : (MetaData.ddl compile engineName m).2 = m := hsnd
  refine ⟨hddl, ⟨by rw [hddl], by rw [hddl], by rw [hddl]⟩, rfl, ?_, rfl, rfl, ?_⟩
  · show m.afterCreateDdl ++ m.stored_procedures.map
        (fun p => if true then p.creation_statement else p.sql) =
      m.afterCreateDdl ++
        m.stored_procedures.map StoredProcDef.creation_statement
    rfl
  · intro engine2 hvis
    rw [_adapt_model_to_engine, hvis]

/-- Witness for C9: on a concrete model with a DateTime column the ddl
call returns the canonical model unchanged, while the adapted copy
rewrites the column type, and the engine sqlite (no visitors) skips
adaptation. -/
theorem c9_witness :
    (MetaData.ddl (fun t => "CREATE TABLE " ++ t.name) "mysql"
        ⟨[⟨"t", [⟨"ts", ColType.dateTime⟩]⟩], [], [], []⟩).2 =
      ⟨[⟨"t", [⟨"ts", ColType.dateTime⟩]⟩], [], [], []⟩ ∧
    (_adapt_model_to_engine
        ⟨[⟨"t", [⟨"ts", ColType.dateTime⟩]⟩], [], [], []⟩ "mysql" true).1.tables =
      [⟨"t", [⟨"ts", ColType.mysqlDatetime 3⟩]⟩] ∧
    _adapt_model_to_engine
        ⟨[⟨"t", [⟨"ts", ColType.dateTime⟩]⟩], [], [], []⟩ "sqlite" true =
      (⟨[⟨"t", [⟨"ts", ColType.dateTime⟩]⟩], [], [], []⟩,
        ⟨[⟨"t", [⟨"ts", ColType.dateTime⟩]⟩], [], [], []⟩) := by
  refine ⟨(c9_ddl_no_mutation (fun t => "CREATE TABLE " ++ t.name) "mysql"
    ⟨[⟨"t", [⟨"ts", ColType.dateTime⟩]⟩], [], [], []⟩).1, rfl, ?_⟩
  exact (c9_ddl_no_mutation (fun t => "CREATE TABLE " ++ t.name) "mysql"
    ⟨[⟨"t", [⟨"ts", ColType.dateTime⟩]⟩], [], [], []⟩).2.2.2.2.2.2
    "sqlite" rfl

end Ogma
